import Mathlib

/-!
Verification of the indexed calendar store of Timothe-rs
(`src/calendar/schedule.rs`), against its natural-language specification.

Modelling conventions:
* `chrono::DateTime<Utc>` timestamps are modelled as unbounded integers.
  `DateTime::<Utc>::MAX_UTC` is a maximum sentinel of the bounded Rust type;
  in the unbounded model it is rendered as the `none` case of an
  `Option Int` ("no limit"), compared by `ltF` below, exactly mirroring the
  `map_or(&MAX_UTC, ...)` / `new.start < existing_end` pair in the source.
* `BTreeMap<DateTime<Utc>, Arc<Event>>` is modelled as a key-sorted
  association list `List (Int × Event)`; its `insert`, `remove`, `range`,
  `iter().next()` operations are `treeInsert`, `treeRemove`, a sorted
  filter, and `List.head?`.
* `HashMap<K, V>` is modelled as an association list with first-match
  lookup; `insert` replaces in place (`alInsert`), `remove` deletes the
  match (`alRemove`).  Iteration order of the model is list order, which
  refines the unspecified iteration order of the Rust `HashMap`.
* `humantime::parse_duration(&config.time_amount)` is modelled by passing
  the already-parsed duration (a `Nat`, seconds) to `Calendar.update`;
  parse failure of the configuration string is not modelled.
* Fallible Rust paths (`.context(...)?`) become `Except String`.
* `fs::write` in `Store::apply` is modelled by a boolean oracle `writeOk`
  deciding whether serialization-and-write succeeds; the persisted file
  contents are carried in the `Store` model as `saved`.
-/

/-- Timestamps: model of `chrono::DateTime<Utc>` (unbounded integers). -/
abbrev Timestamp := Int

/-- Model of the `Event` struct of `src/calendar/mod.rs` (the Rust field
`end` is rendered `endTime`).  Equality is structural, as derived in Rust. -/
structure Event where
  summary : String
  start : Timestamp
  endTime : Timestamp
  location : String
  description : String
  uid : String
deriving DecidableEq, Repr

/-- Model of the `UpdateResult` enum: `Created`, `Updated { old, new }`
(in this order), `Removed`. -/
inductive UpdateResult where
  | Created : Event → UpdateResult
  | Updated : Event → Event → UpdateResult
  | Removed : Event → UpdateResult
deriving DecidableEq, Repr

/-- Model of `HashMap` lookup: first-match lookup in an association list. -/
def alGet {α : Type} (k : String) : List (String × α) → Option α
  | [] => none
  | p :: rest => if p.1 = k then some p.2 else alGet k rest

/-- Model of `HashMap::insert`: replace the match in place, else append. -/
def alInsert {α : Type} (k : String) (v : α) : List (String × α) → List (String × α)
  | [] => [(k, v)]
  | p :: rest => if p.1 = k then (k, v) :: rest else p :: alInsert k v rest

/-- Model of `HashMap::remove`: delete the first match. -/
def alRemove {α : Type} (k : String) : List (String × α) → List (String × α)
  | [] => []
  | p :: rest => if p.1 = k then rest else p :: alRemove k rest

/-- Lookup in the chronological index model, `BTreeMap::get`-style. -/
def lookupT (t : List (Timestamp × Event)) (k : Timestamp) : Option Event :=
  match t with
  | [] => none
  | p :: rest => if p.1 = k then some p.2 else lookupT rest k

/-- Model of `BTreeMap::insert`: ordered insertion, replacing an equal key. -/
def treeInsert (k : Timestamp) (v : Event) : List (Timestamp × Event) → List (Timestamp × Event)
  | [] => [(k, v)]
  | p :: rest =>
    if k < p.1 then (k, v) :: p :: rest
    else if k = p.1 then (k, v) :: rest
    else p :: treeInsert k v rest

/-- Model of `BTreeMap::remove`: delete the first entry with the key. -/
def treeRemove (k : Timestamp) : List (Timestamp × Event) → List (Timestamp × Event)
  | [] => []
  | p :: rest => if p.1 = k then rest else p :: treeRemove k rest

/-- Model of the `Calendar` struct: the chronological index `tree` and the
identity index `uid_index`. -/
structure Calendar where
  tree : List (Timestamp × Event)
  uid_index : List (String × Event)
deriving DecidableEq, Repr

/-- Model of `Calendar::new`. -/
def Calendar.new : Calendar := ⟨[], []⟩

/-- Model of `Calendar::get_range(date, duration)`: scans
`self.tree.range(date..date.add(duration))`.  `BTreeMap::range` panics when
the range's start bound exceeds its end bound, i.e. exactly when
`duration` is negative; the panic is modelled as `none`. -/
def Calendar.get_range (c : Calendar) (date : Timestamp) (duration : Int) : Option (List Event) :=
  if date + duration < date then none
  else some ((c.tree.filter (fun p => decide (date ≤ p.1 ∧ p.1 < date + duration))).map (fun p => p.2))

/-- Model of `impl Serialize for Calendar`: the persisted form is the list of Events
held in `uid_index` (iteration order of the model map). -/
def Calendar.serialize (c : Calendar) : List Event := c.uid_index.map (fun p => p.2)

/-- Model of `impl Deserialize for Calendar`: rebuild both indices from the element
list, inserting in list order. -/
def Calendar.deserialize (elements : List Event) : Calendar :=
  elements.foldl
    (fun c item => ⟨treeInsert item.start item c.tree, alInsert item.uid item c.uid_index⟩)
    Calendar.new

/-- The temporary index of `Calendar::update`:
`BTreeMap::from_iter(events.into_iter().map(|f| (f.start, Arc::new(f))))`.
With duplicate keys the last element wins, as in Rust. -/
def treeFromList (events : List Event) : List (Timestamp × Event) :=
  events.foldl (fun t f => treeInsert f.start f t) []

/-- The `existing_end` value of `Calendar::update`:
`self.tree.iter().next().map_or(&MAX_UTC, |f| f.0)` — the smallest stored
key, or the `MAX_UTC` sentinel (`none`) when the tree is empty. -/
def existing_end (c : Calendar) : Option Timestamp := c.tree.head?.map (fun p => p.1)

/-- The comparison `new.start < existing_end`, where `none` stands for the
`MAX_UTC` sentinel (greater than every modelled timestamp). -/
def ltF (s : Timestamp) : Option Timestamp → Bool
  | none => true
  | some t => decide (s < t)

/-- First pass of `Calendar::update` (`for new in tree_index.values()`):
update or create each incoming event, accumulating the emitted records. -/
def pass1 (fr : Option Timestamp) : Calendar → List UpdateResult → List Event → Calendar × List UpdateResult
  | c, acc, [] => (c, acc)
  | c, acc, new :: rest =>
    match alGet new.uid c.uid_index with
    | some existing =>
      if existing = new then pass1 fr c acc rest
      else
        pass1 fr
          ⟨treeRemove existing.start (treeInsert new.start new c.tree),
           alInsert new.uid new c.uid_index⟩
          (acc ++ [UpdateResult.Updated existing new]) rest
    | none =>
      if ltF new.start fr then
        pass1 fr
          ⟨treeInsert new.start new c.tree, alInsert new.uid new c.uid_index⟩
          (acc ++ [UpdateResult.Created new]) rest
      else
        pass1 fr
          ⟨treeInsert new.start new c.tree, alInsert new.uid new c.uid_index⟩
          acc rest

/-- Second pass of `Calendar::update` (`for event in range`): any event of
the snapshotted window range whose start key is absent from `tree_index`
is removed from both indices and reported; a missing identity-index entry
is the fatal "should happen" error of the source. -/
def pass2 (tidx : List (Timestamp × Event)) : Calendar → List UpdateResult → List Event → Except String (Calendar × List UpdateResult)
  | c, acc, [] => Except.ok (c, acc)
  | c, acc, event :: rest =>
    if (lookupT tidx event.start).isSome then pass2 tidx c acc rest
    else
      match alGet event.uid c.uid_index with
      | some old =>
        pass2 tidx
          ⟨treeRemove event.start c.tree, alRemove event.uid c.uid_index⟩
          (acc ++ [UpdateResult.Removed old]) rest
      | none => Except.error "should happen. the key wasn't in the hashmap"

/-- Model of `Calendar::update(events, fetch_time, config)`.  `time_amount` is the
parsed `config.time_amount` duration in seconds. -/
def Calendar.update (c : Calendar) (events : List Event) (fetch_time : Timestamp)
    (time_amount : Nat) : Except String (Calendar × List UpdateResult) :=
  let tree_index := treeFromList events
  let ee := existing_end c
  let s1 := pass1 ee c [] (tree_index.map (fun p => p.2))
  let end_slice := fetch_time + (time_amount : Int)
  let range := (s1.1.tree.filter (fun p => decide (fetch_time ≤ p.1 ∧ p.1 < end_slice))).map (fun p => p.2)
  pass2 tree_index s1.1 s1.2 range

/-- Model of the `Store` struct: the in-memory calendar map `data`, the
relevant slice of the configuration (`config.calendar.calendars`, each
calendar's parsed `time_amount`), and the persisted file contents
(`none` until first written). -/
structure Store where
  data : List (String × Calendar)
  calendars : List (String × Nat)
  saved : Option (List (String × List Event))
deriving DecidableEq

/-- Serialization of the whole store map (`postcard::to_allocvec(&self.data)`):
each calendar serializes to its event list. -/
def serializeData (d : List (String × Calendar)) : List (String × List Event) :=
  d.map (fun p => (p.1, Calendar.serialize p.2))

/-- Deserialization of a persisted store map: each calendar is rebuilt from
its event list. -/
def deserializeData (l : List (String × List Event)) : List (String × Calendar) :=
  l.map (fun p => (p.1, Calendar.deserialize p.2))

/-- Model of `Store::apply(calendar, events, fetch_time)`.  `writeOk` is the oracle
for the success of the final `postcard::to_allocvec` + `fs::write`.
Returns the store after the call together with the call's result. -/
def Store.apply (s : Store) (writeOk : Bool) (calendar : String) (events : List Event)
    (fetch_time : Timestamp) : Store × Except String (List UpdateResult) :=
  let data0 := match alGet calendar s.data with
    | some _ => s.data
    | none => alInsert calendar Calendar.new s.data
  match alGet calendar s.calendars with
  | none => ({ s with data := data0 }, Except.error "unknown calendar: unreachable")
  | some time_amount =>
    match alGet calendar data0 with
    | none => ({ s with data := data0 }, Except.error "couldn't insert the calendar in the hashmap")
    | some cal =>
      match Calendar.update cal events fetch_time time_amount with
      | Except.error e => ({ s with data := data0 }, Except.error e)
      | Except.ok (cal2, ups) =>
        let data1 := alInsert calendar cal2 data0
        if writeOk then
          ({ s with data := data1, saved := some (serializeData data1) }, Except.ok ups)
        else
          ({ s with data := data1 }, Except.error "failed to write the database file")

/-! ### Well-formedness predicates on calendar states -/

/-- The chronological index is sorted by strictly increasing keys. -/
def sortedKeys (t : List (Timestamp × Event)) : Prop :=
  t.Pairwise (fun p q => p.1 < q.1)

/-- Every chronological entry is keyed by its event's `start`. -/
def keysMatch (t : List (Timestamp × Event)) : Prop := ∀ p ∈ t, p.2.start = p.1

/-- Every identity entry is keyed by its event's `uid`. -/
def wellKeyedU (m : List (String × Event)) : Prop := ∀ q ∈ m, q.1 = q.2.uid

/-- The identity index has no duplicate keys. -/
def uidNodup (m : List (String × Event)) : Prop := (m.map (fun q => q.1)).Nodup

/-- Every event of the chronological index is found in the identity index
under its `uid`. -/
def treeSub (c : Calendar) : Prop := ∀ p ∈ c.tree, alGet p.2.uid c.uid_index = some p.2

/-- Structural well-formedness of a calendar state (holds of every state
the program reaches, bug or no bug). -/
def WF (c : Calendar) : Prop :=
  sortedKeys c.tree ∧ keysMatch c.tree ∧ wellKeyedU c.uid_index ∧ uidNodup c.uid_index ∧ treeSub c

/-- Every event of the identity index is reachable from the chronological
index under its `start` key. -/
def uidSub (c : Calendar) : Prop := ∀ q ∈ c.uid_index, lookupT c.tree q.2.start = some q.2

/-- The lock-step invariant of the specification: well-formed and the two
indices mutually reachable. -/
def Sync (c : Calendar) : Prop := WF c ∧ uidSub c

/-- The `start` timestamp carried by a change record (`new.start` for
`Updated`). -/
def recStart : UpdateResult → Timestamp
  | UpdateResult.Created e => e.start
  | UpdateResult.Updated _ n => n.start
  | UpdateResult.Removed e => e.start

/-- Is the record a `Removed` record? -/
def isRemovedRec : UpdateResult → Bool
  | UpdateResult.Removed _ => true
  | _ => false

/-- Does the record mention an event with the given uid? -/
def touchesUid (u : String) : UpdateResult → Bool
  | UpdateResult.Created e => decide (e.uid = u)
  | UpdateResult.Updated o n => decide (o.uid = u) || decide (n.uid = u)
  | UpdateResult.Removed e => decide (e.uid = u)

/-! ### Derived record and state functions used by the proofs -/

/-- The record(s) the first pass emits for one incoming event, as a function
of the pre-update identity index. -/
def emitRec (m : List (String × Event)) (fr : Option Timestamp) (e : Event) : List UpdateResult :=
  match alGet e.uid m with
  | some old => if old = e then [] else [UpdateResult.Updated old e]
  | none => if ltF e.start fr then [UpdateResult.Created e] else []

/-- All records the first pass emits, against a fixed identity index. -/
def emitAll (m : List (String × Event)) (fr : Option Timestamp) : List Event → List UpdateResult
  | [] => []
  | e :: rest => emitRec m fr e ++ emitAll m fr rest

/-- The records the second pass emits from the snapshotted window range. -/
def emitRemoved (tidx : List (Timestamp × Event)) : List Event → List UpdateResult
  | [] => []
  | ev :: rest =>
    (if (lookupT tidx ev.start).isSome then [] else [UpdateResult.Removed ev]) ++
      emitRemoved tidx rest

/-- State and records after the first pass of `Calendar.update`. -/
def pass1State (c : Calendar) (es : List Event) : Calendar × List UpdateResult :=
  pass1 (existing_end c) c [] ((treeFromList es).map (fun p => p.2))

/-- The snapshotted deletion window of `Calendar.update`. -/
def updateRange (c1 : Calendar) (ft : Timestamp) (ta : Nat) : List Event :=
  (c1.tree.filter (fun p => decide (ft ≤ p.1 ∧ p.1 < ft + (ta : Int)))).map (fun p => p.2)

/-- The value list processed by the first pass of `update`. -/
def updInput (es : List Event) : List Event := (treeFromList es).map (fun p => p.2)

/-- Sample event constructor for concrete scenarios. -/
def mkEv (u : String) (s : Timestamp) (d : String) : Event := ⟨"t", s, s + 1, "", d, u⟩

/-! ### Decidability of the well-formedness predicates -/

instance (t : List (Timestamp × Event)) : Decidable (sortedKeys t) :=
  inferInstanceAs (Decidable (List.Pairwise _ t))

instance (t : List (Timestamp × Event)) : Decidable (keysMatch t) :=
  inferInstanceAs (Decidable (∀ p ∈ t, p.2.start = p.1))

instance (m : List (String × Event)) : Decidable (wellKeyedU m) :=
  inferInstanceAs (Decidable (∀ q ∈ m, q.1 = q.2.uid))

instance (m : List (String × Event)) : Decidable (uidNodup m) :=
  inferInstanceAs (Decidable (List.Nodup _))

instance (c : Calendar) : Decidable (treeSub c) :=
  inferInstanceAs (Decidable (∀ p ∈ c.tree, alGet p.2.uid c.uid_index = some p.2))

instance (c : Calendar) : Decidable (WF c) :=
  inferInstanceAs (Decidable (sortedKeys c.tree ∧ keysMatch c.tree ∧ wellKeyedU c.uid_index ∧
    uidNodup c.uid_index ∧ treeSub c))

instance (c : Calendar) : Decidable (uidSub c) :=
  inferInstanceAs (Decidable (∀ q ∈ c.uid_index, lookupT c.tree q.2.start = some q.2))

instance (c : Calendar) : Decidable (Sync c) :=
  inferInstanceAs (Decidable (WF c ∧ uidSub c))

/-! ### Association-list (`HashMap` model) lemmas -/

theorem alGet_alInsert_self {α : Type} (k : String) (v : α) (m : List (String × α)) :
    alGet k (alInsert k v m) = some v := by
  induction m with
  | nil => simp [alGet, alInsert]
  | cons p rest ih =>
    by_cases h : p.1 = k
    · simp [alGet, alInsert, h]
    · simp [alGet, alInsert, h, ih]

theorem alGet_alInsert_ne {α : Type} {k k' : String} (v : α) (m : List (String × α))
    (h : k' ≠ k) : alGet k' (alInsert k v m) = alGet k' m := by
  have h2 : ¬(k = k') := fun hh => h hh.symm
  induction m with
  | nil => simp [alGet, alInsert, h2]
  | cons p rest ih =>
    by_cases hp : p.1 = k
    · have hp2 : ¬(p.1 = k') := by rw [hp]; exact h2
      simp [alGet, alInsert, hp, hp2, h2]
    · by_cases hp' : p.1 = k'
      · simp [alGet, alInsert, hp, hp', h, h2]
      · simp [alGet, alInsert, hp, hp', ih]

theorem alGet_alRemove_ne {α : Type} {k k' : String} (m : List (String × α))
    (h : k' ≠ k) : alGet k' (alRemove k m) = alGet k' m := by
  induction m with
  | nil => simp [alRemove]
  | cons p rest ih =>
    by_cases hp : p.1 = k
    · have hp2 : ¬(p.1 = k') := by rw [hp]; exact fun hh => h hh.symm
      have h2 : ¬(k = k') := fun hh => h hh.symm
      simp [alRemove, alGet, hp, hp2, h2]
    · by_cases hp' : p.1 = k'
      · simp [alRemove, alGet, hp, hp', h]
      · simp [alRemove, alGet, hp, hp', ih]

theorem alGet_mem {α : Type} {k : String} {v : α} :
    ∀ {m : List (String × α)}, alGet k m = some v → (k, v) ∈ m := by
  intro m
  induction m with
  | nil => intro h; simp [alGet] at h
  | cons p rest ih =>
    obtain ⟨a, b⟩ := p
    intro h
    by_cases hp : a = k
    · simp [alGet, hp] at h
      subst hp
      subst h
      exact List.mem_cons_self _ _
    · simp [alGet, hp] at h
      exact List.mem_cons_of_mem _ (ih h)

theorem mem_alInsert {α : Type} {p : String × α} {k : String} {v : α} :
    ∀ {m : List (String × α)}, p ∈ alInsert k v m → p = (k, v) ∨ p ∈ m := by
  intro m
  induction m with
  | nil => intro h; simp [alInsert] at h; exact Or.inl h
  | cons q rest ih =>
    intro h
    by_cases hq : q.1 = k
    · simp [alInsert, hq] at h
      rcases h with h | h
      · exact Or.inl h
      · exact Or.inr (List.mem_cons_of_mem _ h)
    · simp only [alInsert, hq, if_false] at h
      rcases List.mem_cons.mp h with h1 | h1
      · exact Or.inr (by rw [h1]; exact List.mem_cons_self _ _)
      · rcases ih h1 with h2 | h2
        · exact Or.inl h2
        · exact Or.inr (List.mem_cons_of_mem _ h2)

theorem alRemove_sublist {α : Type} (k : String) :
    ∀ (m : List (String × α)), (alRemove k m).Sublist m := by
  intro m
  induction m with
  | nil => simp [alRemove]
  | cons q rest ih =>
    by_cases hq : q.1 = k
    · simp only [alRemove, hq, if_true]
      exact List.sublist_cons_self _ _
    · simp only [alRemove, hq, if_false]
      exact List.Sublist.cons₂ _ ih

theorem alGet_eq_none {α : Type} {k : String} :
    ∀ {m : List (String × α)}, alGet k m = none ↔ ∀ p ∈ m, p.1 ≠ k := by
  intro m
  induction m with
  | nil => simp [alGet]
  | cons q rest ih =>
    by_cases hq : q.1 = k
    · simp [alGet, hq]
    · simp [alGet, hq, ih]

theorem alInsert_keys {α : Type} (k : String) (v : α) :
    ∀ (m : List (String × α)),
      (alGet k m).isSome → (alInsert k v m).map (fun q => q.1) = m.map (fun q => q.1) := by
  intro m
  induction m with
  | nil => intro h; simp [alGet] at h
  | cons q rest ih =>
    intro h
    by_cases hq : q.1 = k
    · simp [alInsert, hq]
    · simp only [alGet, hq, if_false] at h
      simp [alInsert, hq, ih h]

theorem alInsert_keys_fresh {α : Type} (k : String) (v : α) :
    ∀ (m : List (String × α)),
      alGet k m = none → alInsert k v m = m ++ [(k, v)] := by
  intro m
  induction m with
  | nil => intro _; simp [alInsert]
  | cons q rest ih =>
    intro h
    by_cases hq : q.1 = k
    · simp [alGet, hq] at h
    · simp only [alGet, hq, if_false] at h
      simp [alInsert, hq, ih h]

theorem uidNodup_alInsert {k : String} {v : Event} {m : List (String × Event)}
    (h : uidNodup m) : uidNodup (alInsert k v m) := by
  unfold uidNodup at h ⊢
  cases hg : alGet k m with
  | some w =>
    rw [alInsert_keys k v m (by rw [hg]; rfl)]
    exact h
  | none =>
    rw [alInsert_keys_fresh k v m hg]
    rw [List.map_append, List.nodup_append]
    refine ⟨h, by simp, ?_⟩
    intro a ha hb
    simp at hb
    subst hb
    rcases List.mem_map.mp ha with ⟨p, hp, hpk⟩
    exact (alGet_eq_none.mp hg) p hp hpk

theorem wellKeyedU_alInsert {e : Event} {m : List (String × Event)}
    (h : wellKeyedU m) : wellKeyedU (alInsert e.uid e m) := by
  intro q hq
  rcases mem_alInsert hq with h1 | h1
  · rw [h1]
  · exact h q h1

theorem wellKeyedU_alRemove {k : String} {m : List (String × Event)}
    (h : wellKeyedU m) : wellKeyedU (alRemove k m) := by
  intro q hq
  exact h q ((alRemove_sublist k m).mem hq)

theorem uidNodup_alRemove {k : String} {m : List (String × Event)}
    (h : uidNodup m) : uidNodup (alRemove k m) := by
  unfold uidNodup at h ⊢
  exact ((alRemove_sublist k m).map (fun q => q.1)).nodup h

theorem alGet_eq_uid {m : List (String × Event)} {u : String} {e : Event}
    (hw : wellKeyedU m) (h : alGet u m = some e) : e.uid = u := by
  have := hw (u, e) (alGet_mem h)
  simpa using this.symm

/-! ### Chronological-index (`BTreeMap` model) lemmas -/

theorem lookupT_treeInsert_self (t : List (Timestamp × Event)) (k : Timestamp) (v : Event) :
    lookupT (treeInsert k v t) k = some v := by
  induction t with
  | nil => simp [lookupT, treeInsert]
  | cons p rest ih =>
    by_cases h1 : k < p.1
    · simp [lookupT, treeInsert, h1]
    · by_cases h2 : k = p.1
      · simp [lookupT, treeInsert, h1, h2]
      · have h3 : ¬(p.1 = k) := fun hh => h2 hh.symm
        simp [lookupT, treeInsert, h1, h2, h3, ih]

theorem lookupT_treeInsert_ne {k k' : Timestamp} (t : List (Timestamp × Event)) (v : Event)
    (h : k' ≠ k) : lookupT (treeInsert k v t) k' = lookupT t k' := by
  have h2 : ¬(k = k') := fun hh => h hh.symm
  induction t with
  | nil => simp [lookupT, treeInsert, h2]
  | cons p rest ih =>
    by_cases h1 : k < p.1
    · simp [lookupT, treeInsert, h1, h2]
    · by_cases heq : k = p.1
      · have hp : ¬(p.1 = k') := by rw [← heq]; exact h2
        simp [lookupT, treeInsert, h1, heq, h2, hp]
      · simp only [treeInsert, if_neg h1, if_neg heq, lookupT]
        by_cases hp : p.1 = k'
        · simp [lookupT, hp]
        · simp [lookupT, hp, ih]

theorem lookupT_treeRemove_ne {k k' : Timestamp} (t : List (Timestamp × Event))
    (h : k' ≠ k) : lookupT (treeRemove k t) k' = lookupT t k' := by
  induction t with
  | nil => simp [treeRemove]
  | cons p rest ih =>
    by_cases hp : p.1 = k
    · have hp2 : ¬(p.1 = k') := by rw [hp]; exact fun hh => h hh.symm
      have h2 : ¬(k = k') := fun hh => h hh.symm
      simp [treeRemove, lookupT, hp, hp2, h2]
    · by_cases hp' : p.1 = k'
      · simp [treeRemove, lookupT, hp, hp', h]
      · simp [treeRemove, lookupT, hp, hp', ih]

theorem lookupT_mem {k : Timestamp} {v : Event} :
    ∀ {t : List (Timestamp × Event)}, lookupT t k = some v → (k, v) ∈ t := by
  intro t
  induction t with
  | nil => intro h; simp [lookupT] at h
  | cons p rest ih =>
    obtain ⟨a, b⟩ := p
    intro h
    by_cases hp : a = k
    · simp [lookupT, hp] at h
      subst hp
      subst h
      exact List.mem_cons_self _ _
    · simp [lookupT, hp] at h
      exact List.mem_cons_of_mem _ (ih h)

theorem mem_lookupT {k : Timestamp} {v : Event} :
    ∀ {t : List (Timestamp × Event)}, (t.map (fun p => p.1)).Nodup → (k, v) ∈ t →
      lookupT t k = some v := by
  intro t
  induction t with
  | nil => intro _ h; simp at h
  | cons p rest ih =>
    intro hnd hm
    rcases List.mem_cons.mp hm with h1 | h1
    · rw [← h1]
      simp [lookupT]
    · have hk : k ∈ rest.map (fun p => p.1) := List.mem_map.mpr ⟨(k, v), h1, rfl⟩
      have hp : ¬(p.1 = k) := by
        intro hh
        have hnotin : p.1 ∉ rest.map (fun p => p.1) := (List.nodup_cons.mp hnd).1
        rw [hh] at hnotin
        exact hnotin hk
      simp [lookupT, hp]
      exact ih (List.nodup_cons.mp hnd).2 h1

theorem mem_treeInsert {p : Timestamp × Event} {k : Timestamp} {v : Event} :
    ∀ {t : List (Timestamp × Event)}, p ∈ treeInsert k v t → p = (k, v) ∨ p ∈ t := by
  intro t
  induction t with
  | nil => intro h; simp [treeInsert] at h; exact Or.inl h
  | cons q rest ih =>
    intro h
    by_cases h1 : k < q.1
    · simp only [treeInsert, if_pos h1] at h
      rcases List.mem_cons.mp h with h2 | h2
      · exact Or.inl h2
      · exact Or.inr h2
    · by_cases h2 : k = q.1
      · simp only [treeInsert, if_neg h1, if_pos h2] at h
        rcases List.mem_cons.mp h with h3 | h3
        · exact Or.inl h3
        · exact Or.inr (List.mem_cons_of_mem _ h3)
      · simp only [treeInsert, if_neg h1, if_neg h2] at h
        rcases List.mem_cons.mp h with h3 | h3
        · exact Or.inr (by rw [h3]; exact List.mem_cons_self _ _)
        · rcases ih h3 with h4 | h4
          · exact Or.inl h4
          · exact Or.inr (List.mem_cons_of_mem _ h4)

theorem treeRemove_sublist (k : Timestamp) :
    ∀ (t : List (Timestamp × Event)), (treeRemove k t).Sublist t := by
  intro t
  induction t with
  | nil => simp [treeRemove]
  | cons q rest ih =>
    by_cases hq : q.1 = k
    · simp only [treeRemove, if_pos hq]
      exact List.sublist_cons_self _ _
    · simp only [treeRemove, if_neg hq]
      exact List.Sublist.cons₂ _ ih

theorem sortedKeys_treeInsert {t : List (Timestamp × Event)} (k : Timestamp) (v : Event)
    (h : sortedKeys t) : sortedKeys (treeInsert k v t) := by
  unfold sortedKeys at h ⊢
  induction t with
  | nil => simp [treeInsert]
  | cons q rest ih =>
    rcases List.pairwise_cons.mp h with ⟨hq, hrest⟩
    by_cases h1 : k < q.1
    · simp only [treeInsert, if_pos h1]
      refine List.pairwise_cons.mpr ⟨?_, h⟩
      intro a ha
      rcases List.mem_cons.mp ha with h2 | h2
      · rw [h2]; exact h1
      · exact lt_trans h1 (hq a h2)
    · by_cases h2 : k = q.1
      · simp only [treeInsert, if_neg h1, if_pos h2]
        refine List.pairwise_cons.mpr ⟨?_, hrest⟩
        intro a ha
        rw [h2]
        exact hq a ha
      · simp only [treeInsert, if_neg h1, if_neg h2]
        refine List.pairwise_cons.mpr ⟨?_, ih hrest⟩
        intro a ha
        rcases mem_treeInsert ha with h3 | h3
        · rw [h3]
          simp only
          rcases lt_trichotomy k q.1 with hlt | heq | hgt
          · exact absurd hlt h1
          · exact absurd heq h2
          · exact hgt
        · exact hq a h3

theorem sortedKeys_treeRemove {t : List (Timestamp × Event)} (k : Timestamp)
    (h : sortedKeys t) : sortedKeys (treeRemove k t) :=
  h.sublist (treeRemove_sublist k t)

theorem sortedKeys_nodup {t : List (Timestamp × Event)} (h : sortedKeys t) :
    (t.map (fun p => p.1)).Nodup := by
  have hp : (t.map (fun p => p.1)).Pairwise (fun a b => a ≠ b) := by
    rw [List.pairwise_map]
    exact h.imp (fun hab => ne_of_lt hab)
  exact hp

theorem lookupT_eq_none {k : Timestamp} :
    ∀ {t : List (Timestamp × Event)}, lookupT t k = none ↔ ∀ p ∈ t, p.1 ≠ k := by
  intro t
  induction t with
  | nil => simp [lookupT]
  | cons q rest ih =>
    by_cases hq : q.1 = k
    · simp [lookupT, hq]
    · simp [lookupT, hq, ih]

theorem lookupT_treeRemove_self {k : Timestamp} {t : List (Timestamp × Event)}
    (h : (t.map (fun p => p.1)).Nodup) : lookupT (treeRemove k t) k = none := by
  induction t with
  | nil => simp [treeRemove, lookupT]
  | cons q rest ih =>
    have hnd : q.1 ∉ rest.map (fun p => p.1) ∧ (rest.map (fun p => p.1)).Nodup := by
      simp only [List.map_cons, List.nodup_cons] at h
      exact h
    by_cases hq : q.1 = k
    · simp only [treeRemove, if_pos hq]
      rw [lookupT_eq_none]
      intro p hp hpk
      exact hnd.1 (by rw [hq, ← hpk]; exact List.mem_map.mpr ⟨p, hp, rfl⟩)
    · simp only [treeRemove, if_neg hq, lookupT, if_neg hq]
      exact ih hnd.2

theorem treeInsert_perm {k : Timestamp} {v : Event} :
    ∀ {t : List (Timestamp × Event)}, lookupT t k = none →
      (treeInsert k v t).Perm ((k, v) :: t) := by
  intro t
  induction t with
  | nil => intro _; simp [treeInsert]
  | cons p rest ih =>
    intro h
    by_cases h1 : k < p.1
    · simp only [treeInsert, if_pos h1]
      exact List.Perm.refl _
    · by_cases h2 : k = p.1
      · exfalso
        rw [lookupT_eq_none] at h
        exact h p (List.mem_cons_self _ _) h2.symm
      · simp only [treeInsert, if_neg h1, if_neg h2]
        have hrest : lookupT rest k = none := by
          have hp : ¬(p.1 = k) := fun hh => h2 hh.symm
          simpa [lookupT, hp] using h
        exact ((ih hrest).cons p).trans (List.Perm.swap _ _ _)

theorem lookupT_head (p : Timestamp × Event) (rest : List (Timestamp × Event)) :
    lookupT (p :: rest) p.1 = some p.2 := by
  simp [lookupT]

theorem sorted_lookup_tail {p : Timestamp × Event} {rest : List (Timestamp × Event)}
    (h : sortedKeys (p :: rest)) : lookupT rest p.1 = none := by
  rw [lookupT_eq_none]
  intro q hq
  exact ne_of_gt ((List.pairwise_cons.mp h).1 q hq)

theorem sorted_ext : ∀ {t t' : List (Timestamp × Event)}, sortedKeys t → sortedKeys t' →
    (∀ k, lookupT t k = lookupT t' k) → t = t' := by
  intro t
  induction t with
  | nil =>
    intro t' _ _ hl
    cases t' with
    | nil => rfl
    | cons q rest' =>
      exfalso
      have := hl q.1
      rw [lookupT_head] at this
      simp [lookupT] at this
  | cons p rest ih =>
    intro t' hs hs' hl
    cases t' with
    | nil =>
      exfalso
      have := hl p.1
      rw [lookupT_head] at this
      simp [lookupT] at this
    | cons q rest' =>
      have hpq : p = q := by
        have hq_in : (q.1, q.2) ∈ p :: rest := by
          apply lookupT_mem
          rw [hl q.1, lookupT_head]
        have hp_in : (p.1, p.2) ∈ q :: rest' := by
          apply lookupT_mem
          rw [← hl p.1, lookupT_head]
        rcases List.mem_cons.mp hq_in with h1 | h1
        · exact (Prod.mk.eta.symm.trans h1).symm
        · rcases List.mem_cons.mp hp_in with h2 | h2
          · exact Prod.mk.eta.symm.trans h2
          · exfalso
            have hlt1 : p.1 < q.1 := by
              have := (List.pairwise_cons.mp hs).1 (q.1, q.2) h1
              simpa using this
            have hlt2 : q.1 < p.1 := by
              have := (List.pairwise_cons.mp hs').1 (p.1, p.2) h2
              simpa using this
            exact lt_irrefl _ (lt_trans hlt1 hlt2)
      subst hpq
      have htail : ∀ k, lookupT rest k = lookupT rest' k := by
        intro k
        by_cases hk : k = p.1
        · subst hk
          rw [sorted_lookup_tail hs, sorted_lookup_tail hs']
        · have h1 := hl k
          have hp : ¬(p.1 = k) := fun hh => hk hh.symm
          simpa [lookupT, hp] using h1
      rw [ih (List.pairwise_cons.mp hs).2 (List.pairwise_cons.mp hs').2 htail]

/-! ### `treeFromList` (the temporary index of `update`) -/

theorem treeFromList_go_sorted (es : List Event) :
    ∀ (t : List (Timestamp × Event)), sortedKeys t →
      sortedKeys (es.foldl (fun t f => treeInsert f.start f t) t) := by
  induction es with
  | nil => intro t ht; simpa using ht
  | cons e rest ih =>
    intro t ht
    simpa using ih _ (sortedKeys_treeInsert _ _ ht)

theorem treeFromList_sorted (es : List Event) : sortedKeys (treeFromList es) :=
  treeFromList_go_sorted es [] (by simp [sortedKeys])

theorem treeFromList_go_keysMatch (es : List Event) :
    ∀ (t : List (Timestamp × Event)), keysMatch t →
      keysMatch (es.foldl (fun t f => treeInsert f.start f t) t) := by
  induction es with
  | nil => intro t ht; simpa using ht
  | cons e rest ih =>
    intro t ht
    simp only [List.foldl_cons]
    apply ih
    intro p hp
    rcases mem_treeInsert hp with h1 | h1
    · rw [h1]
    · exact ht p h1

theorem treeFromList_keysMatch (es : List Event) : keysMatch (treeFromList es) :=
  treeFromList_go_keysMatch es [] (by intro p hp; simp at hp)

/-- With pairwise-distinct starts the temporary index is a permutation of
the keyed input list. -/
theorem treeFromList_perm {es : List Event}
    (hd : es.Pairwise (fun a b => a.start ≠ b.start)) :
    (treeFromList es).Perm (es.map (fun e => (e.start, e))) := by
  have main : ∀ (es : List Event) (t : List (Timestamp × Event)),
      es.Pairwise (fun a b => a.start ≠ b.start) →
      (∀ e ∈ es, lookupT t e.start = none) →
      (es.foldl (fun t f => treeInsert f.start f t) t).Perm
        ((es.map (fun e => (e.start, e))) ++ t) := by
    intro es
    induction es with
    | nil => intro t _ _; simp
    | cons e rest ih =>
      intro t hd hfresh
      simp only [List.foldl_cons, List.map_cons, List.cons_append]
      have hfresh2 : ∀ r ∈ rest, lookupT (treeInsert e.start e t) r.start = none := by
        intro r hr
        rw [lookupT_treeInsert_ne _ _ ((List.pairwise_cons.mp hd).1 r hr).symm]
        exact hfresh r (List.mem_cons_of_mem _ hr)
      have h1 := ih (treeInsert e.start e t) (List.pairwise_cons.mp hd).2 hfresh2
      have h2 : (treeInsert e.start e t).Perm ((e.start, e) :: t) :=
        treeInsert_perm (hfresh e (List.mem_cons_self _ _))
      exact (h1.trans ((List.Perm.append_left _ h2).trans List.perm_middle))
  simpa using main es [] hd (by intro e _; simp [lookupT])

/-- With pairwise-distinct starts, the value sequence fed to the first pass
of `update` is a permutation of the input list. -/
theorem treeFromList_values_perm {es : List Event}
    (hd : es.Pairwise (fun a b => a.start ≠ b.start)) :
    ((treeFromList es).map (fun p => p.2)).Perm es := by
  have h := (treeFromList_perm hd).map (fun p : Timestamp × Event => p.2)
  rw [List.map_map] at h
  have hid : ((fun p : Timestamp × Event => p.2) ∘ (fun e : Event => (e.start, e))) = id := rfl
  rw [hid, List.map_id] at h
  exact h

/-! ### First-pass lemmas -/

theorem emitAll_congr {m1 m2 : List (String × Event)} {fr : Option Timestamp} :
    ∀ {es : List Event}, (∀ r ∈ es, alGet r.uid m1 = alGet r.uid m2) →
      emitAll m1 fr es = emitAll m2 fr es := by
  intro es
  induction es with
  | nil => intro _; rfl
  | cons e rest ih =>
    intro h
    have he := h e (List.mem_cons_self _ _)
    simp only [emitAll]
    rw [ih (fun r hr => h r (List.mem_cons_of_mem _ hr))]
    unfold emitRec
    rw [he]

theorem pass1_append (fr : Option Timestamp) :
    ∀ (xs ys : List Event) (c : Calendar) (acc : List UpdateResult),
      pass1 fr c acc (xs ++ ys) = pass1 fr (pass1 fr c acc xs).1 (pass1 fr c acc xs).2 ys := by
  intro xs
  induction xs with
  | nil => intro ys c acc; rfl
  | cons e rest ih =>
    intro ys c acc
    simp only [List.cons_append, pass1]
    cases hg : alGet e.uid c.uid_index with
    | some existing =>
      by_cases he : existing = e
      · simp only [if_pos he]
        exact ih ys c acc
      · simp only [if_neg he]
        exact ih ys _ _
    | none =>
      by_cases hl : ltF e.start fr
      · simp only [hl, if_true]
        exact ih ys _ _
      · simp only [hl, Bool.false_eq_true, if_false]
        exact ih ys _ _

/-- Processing events none of which carries uid `u` leaves the identity
lookup of `u` unchanged. -/
theorem pass1_uid_other (fr : Option Timestamp) {u : String} :
    ∀ (es : List Event) (c : Calendar) (acc : List UpdateResult),
      (∀ e ∈ es, e.uid ≠ u) →
      alGet u (pass1 fr c acc es).1.uid_index = alGet u c.uid_index := by
  intro es
  induction es with
  | nil => intro c acc _; rfl
  | cons e rest ih =>
    intro c acc h
    have hne : u ≠ e.uid := fun hh => h e (List.mem_cons_self _ _) hh.symm
    have hins : alGet u (alInsert e.uid e c.uid_index) = alGet u c.uid_index :=
      alGet_alInsert_ne e c.uid_index hne
    have hrest := fun (c2 : Calendar) (acc2 : List UpdateResult) =>
      ih c2 acc2 (fun r hr => h r (List.mem_cons_of_mem _ hr))
    simp only [pass1]
    cases hg : alGet e.uid c.uid_index with
    | some existing =>
      by_cases he : existing = e
      · simp only [if_pos he]
        exact hrest c acc
      · simp only [if_neg he]
        rw [hrest _ _]
        exact hins
    | none =>
      by_cases hl : ltF e.start fr
      · simp only [hl, if_true]
        rw [hrest _ _]
        exact hins
      · simp only [hl, Bool.false_eq_true, if_false]
        rw [hrest _ _]
        exact hins

/-- The first pass leaves a tree key unchanged when no processed event has
that start and no processed event's stored counterpart has that start. -/
theorem pass1_tree_other (fr : Option Timestamp) {k : Timestamp} :
    ∀ (es : List Event) (c : Calendar) (acc : List UpdateResult),
      (∀ e ∈ es, e.start ≠ k) →
      (∀ e ∈ es, ∀ old, alGet e.uid c.uid_index = some old → old.start ≠ k) →
      lookupT (pass1 fr c acc es).1.tree k = lookupT c.tree k := by
  intro es
  induction es with
  | nil => intro c acc _ _; rfl
  | cons e rest ih =>
    intro c acc h1 h2
    have h1e : e.start ≠ k := h1 e (List.mem_cons_self _ _)
    have h1rest : ∀ r ∈ rest, r.start ≠ k := fun r hr => h1 r (List.mem_cons_of_mem _ hr)
    have h2rest : ∀ r ∈ rest, ∀ old, alGet r.uid (alInsert e.uid e c.uid_index) = some old → old.start ≠ k := by
      intro r hr old hold
      by_cases hru : r.uid = e.uid
      · rw [hru, alGet_alInsert_self] at hold
        have : old = e := ((Option.some.injEq _ _).mp hold).symm
        rw [this]
        exact h1e
      · rw [alGet_alInsert_ne _ _ hru] at hold
        exact h2 r (List.mem_cons_of_mem _ hr) old hold
    simp only [pass1]
    cases hg : alGet e.uid c.uid_index with
    | some existing =>
      by_cases he : existing = e
      · simp only [if_pos he]
        exact ih c acc h1rest (fun r hr => h2 r (List.mem_cons_of_mem _ hr))
      · simp only [if_neg he]
        rw [ih _ _ h1rest h2rest]
        simp only
        rw [lookupT_treeRemove_ne _ (fun hh => h2 e (List.mem_cons_self _ _) existing hg hh.symm)]
        rw [lookupT_treeInsert_ne _ _ (fun hh => h1e hh.symm)]
    | none =>
      have htree : lookupT (treeInsert e.start e c.tree) k = lookupT c.tree k :=
        lookupT_treeInsert_ne _ _ (fun hh => h1e hh.symm)
      by_cases hl : ltF e.start fr
      · simp only [hl, if_true]
        rw [ih _ _ h1rest h2rest]
        exact htree
      · simp only [hl, Bool.false_eq_true, if_false]
        rw [ih _ _ h1rest h2rest]
        exact htree

/-- With pairwise-distinct uids, the first pass emits exactly the records
computed against the pre-update identity index, in processing order. -/
theorem pass1_records (fr : Option Timestamp) :
    ∀ (es : List Event) (c : Calendar) (acc : List UpdateResult),
      es.Pairwise (fun a b => a.uid ≠ b.uid) →
      (pass1 fr c acc es).2 = acc ++ emitAll c.uid_index fr es := by
  intro es
  induction es with
  | nil => intro c acc _; simp [pass1, emitAll]
  | cons e rest ih =>
    intro c acc hd
    have hd1 := (List.pairwise_cons.mp hd).1
    have hd2 := (List.pairwise_cons.mp hd).2
    have hcongr : ∀ r ∈ rest, alGet r.uid (alInsert e.uid e c.uid_index) = alGet r.uid c.uid_index := by
      intro r hr
      exact alGet_alInsert_ne e c.uid_index (fun hh => hd1 r hr hh.symm)
    simp only [pass1, emitAll]
    cases hg : alGet e.uid c.uid_index with
    | some existing =>
      by_cases he : existing = e
      · simp only [if_pos he]
        rw [ih c acc hd2]
        simp [emitRec, hg, he]
      · simp only [if_neg he]
        rw [ih _ _ hd2]
        rw [emitAll_congr hcongr]
        simp [emitRec, hg, he]
    | none =>
      by_cases hl : ltF e.start fr
      · simp only [hl, if_true]
        rw [ih _ _ hd2]
        rw [emitAll_congr hcongr]
        simp [emitRec, hg, hl]
      · simp only [hl, Bool.false_eq_true, if_false]
        rw [ih _ _ hd2]
        rw [emitAll_congr hcongr]
        simp [emitRec, hg, hl]

/-- The first pass preserves structural well-formedness. -/
theorem pass1_WF (fr : Option Timestamp) :
    ∀ (es : List Event) (c : Calendar) (acc : List UpdateResult),
      WF c → WF (pass1 fr c acc es).1 := by
  intro es
  induction es with
  | nil => intro c acc h; exact h
  | cons e rest ih =>
    intro c acc h
    obtain ⟨hs, hkm, hwk, hnd, hsub⟩ := h
    simp only [pass1]
    cases hg : alGet e.uid c.uid_index with
    | some existing =>
      by_cases he : existing = e
      · simp only [if_pos he]
        exact ih c acc ⟨hs, hkm, hwk, hnd, hsub⟩
      · simp only [if_neg he]
        apply ih
        refine ⟨?_, ?_, wellKeyedU_alInsert hwk, uidNodup_alInsert hnd, ?_⟩
        · exact sortedKeys_treeRemove _ (sortedKeys_treeInsert _ _ hs)
        · intro p hp
          rcases mem_treeInsert ((treeRemove_sublist _ _).mem hp) with h1 | h1
          · rw [h1]
          · exact hkm p h1
        · intro p hp
          have hs2 : sortedKeys (treeRemove existing.start (treeInsert e.start e c.tree)) :=
            sortedKeys_treeRemove _ (sortedKeys_treeInsert _ _ hs)
          rcases mem_treeInsert ((treeRemove_sublist _ _).mem hp) with h1 | h1
          · rw [h1]
            simp only
            exact alGet_alInsert_self _ _ _
          · by_cases hu : p.2.uid = e.uid
            · exfalso
              have hpe : p.2 = existing := by
                have := hsub p h1
                rw [hu, hg] at this
                exact ((Option.some.injEq _ _).mp this).symm
              have hkey : p.1 = existing.start := by
                rw [← hkm p h1, hpe]
              have hnone : lookupT (treeRemove existing.start (treeInsert e.start e c.tree)) existing.start = none :=
                lookupT_treeRemove_self (sortedKeys_nodup (sortedKeys_treeInsert _ _ hs))
              have hmem : (p.1, p.2) ∈ treeRemove existing.start (treeInsert e.start e c.tree) := by
                rw [Prod.mk.eta]
                exact hp
              have hsome := mem_lookupT (sortedKeys_nodup hs2) hmem
              rw [hkey] at hsome
              rw [hnone] at hsome
              exact Option.noConfusion hsome
            · rw [alGet_alInsert_ne _ _ hu]
              exact hsub p h1
    | none =>
      have hstep : ∀ acc2 : List UpdateResult,
          WF (pass1 fr ⟨treeInsert e.start e c.tree, alInsert e.uid e c.uid_index⟩ acc2 rest).1 := by
        intro acc2
        apply ih
        refine ⟨sortedKeys_treeInsert _ _ hs, ?_, wellKeyedU_alInsert hwk, uidNodup_alInsert hnd, ?_⟩
        · intro p hp
          rcases mem_treeInsert hp with h1 | h1
          · rw [h1]
          · exact hkm p h1
        · intro p hp
          rcases mem_treeInsert hp with h1 | h1
          · rw [h1]
            simp only
            exact alGet_alInsert_self _ _ _
          · by_cases hu : p.2.uid = e.uid
            · exfalso
              have := hsub p h1
              rw [hu, hg] at this
              exact Option.noConfusion this
            · rw [alGet_alInsert_ne _ _ hu]
              exact hsub p h1
      by_cases hl : ltF e.start fr
      · simp only [hl, if_true]
        exact hstep _
      · simp only [hl, Bool.false_eq_true, if_false]
        exact hstep _

/-- After the first pass, the identity index maps each processed uid to the
(last-processed, with distinct uids: unique) event carrying it. -/
theorem pass1_split_uid (fr : Option Timestamp) (l1 l2 : List Event) (e : Event)
    (c : Calendar) (acc : List UpdateResult)
    (hd : (l1 ++ e :: l2).Pairwise (fun a b => a.uid ≠ b.uid)) :
    alGet e.uid (pass1 fr c acc (l1 ++ e :: l2)).1.uid_index = some e := by
  have hl2 : ∀ r ∈ l2, r.uid ≠ e.uid := by
    intro r hr
    have h1 := (List.pairwise_append.mp hd).2.1
    exact fun hh => (List.pairwise_cons.mp h1).1 r hr hh.symm
  rw [pass1_append]
  set c1 := (pass1 fr c acc l1).1
  set acc1 := (pass1 fr c acc l1).2
  simp only [pass1]
  cases hg : alGet e.uid c1.uid_index with
  | some existing =>
    by_cases he : existing = e
    · simp only [if_pos he]
      rw [pass1_uid_other fr l2 c1 acc1 hl2, hg, he]
    · simp only [if_neg he]
      rw [pass1_uid_other fr l2 _ _ hl2]
      exact alGet_alInsert_self _ _ _
  | none =>
    by_cases hl : ltF e.start fr
    · simp only [hl, if_true]
      rw [pass1_uid_other fr l2 _ _ hl2]
      exact alGet_alInsert_self _ _ _
    · simp only [hl, Bool.false_eq_true, if_false]
      rw [pass1_uid_other fr l2 _ _ hl2]
      exact alGet_alInsert_self _ _ _

/-- A fresh-uid event processed by the first pass ends up in the
chronological index under its start key, provided the batch has
pairwise-distinct starts and uids and no start collision against stored
events of other uids. -/
theorem pass1_split_tree_fresh (fr : Option Timestamp) (l1 l2 : List Event) (e : Event)
    (c : Calendar) (acc : List UpdateResult)
    (hsync : Sync c)
    (hds : (l1 ++ e :: l2).Pairwise (fun a b => a.start ≠ b.start))
    (hdu : (l1 ++ e :: l2).Pairwise (fun a b => a.uid ≠ b.uid))
    (hcross : ∀ x ∈ l1 ++ e :: l2, ∀ p ∈ c.tree, p.1 = x.start → p.2.uid = x.uid)
    (hfresh : alGet e.uid c.uid_index = none) :
    lookupT (pass1 fr c acc (l1 ++ e :: l2)).1.tree e.start = some e := by
  obtain ⟨⟨hsT, hkm, hwk, hnd, hsub⟩, husub⟩ := hsync
  have huid_l1 : ∀ r ∈ l1, r.uid ≠ e.uid :=
    fun r hr => (List.pairwise_append.mp hdu).2.2 r hr e (List.mem_cons_self _ _)
  have huid_l2 : ∀ r ∈ l2, r.uid ≠ e.uid := by
    intro r hr
    have h1 := (List.pairwise_append.mp hdu).2.1
    exact fun hh => (List.pairwise_cons.mp h1).1 r hr hh.symm
  have hstart_l2 : ∀ r ∈ l2, r.start ≠ e.start := by
    intro r hr
    have h1 := (List.pairwise_append.mp hds).2.1
    exact fun hh => (List.pairwise_cons.mp h1).1 r hr hh.symm
  rw [pass1_append]
  set c1 := (pass1 fr c acc l1).1 with hc1
  set acc1 := (pass1 fr c acc l1).2
  have hg1 : alGet e.uid c1.uid_index = none := by
    rw [hc1, pass1_uid_other fr l1 c acc huid_l1]
    exact hfresh
  -- the lookup of every l2 uid is untouched through l1 and the e step
  have huid_keep : ∀ r ∈ l2, alGet r.uid (alInsert e.uid e c1.uid_index) = alGet r.uid c.uid_index := by
    intro r hr
    rw [alGet_alInsert_ne _ _ (huid_l2 r hr), hc1]
    apply pass1_uid_other
    intro x hx hxr
    exact (List.pairwise_append.mp hdu).2.2 x hx r (List.mem_cons_of_mem _ hr) hxr
  have hstored_start : ∀ r ∈ l2, ∀ old, alGet r.uid c.uid_index = some old → old.start ≠ e.start := by
    intro r hr old hold hcollide
    have hmemu : (r.uid, old) ∈ c.uid_index := alGet_mem hold
    have htree_old : (old.start, old) ∈ c.tree := lookupT_mem (husub _ hmemu)
    have := hcross e (List.mem_append.mpr (Or.inr (List.mem_cons_self _ _)))
      (old.start, old) htree_old (by simpa using hcollide)
    have hknd : r.uid = old.uid := by simpa using hwk (r.uid, old) hmemu
    have : r.uid = e.uid := by rw [hknd]; simpa using this
    exact huid_l2 r hr this
  simp only [pass1]
  rw [hg1]
  have hl2d : l2.Pairwise (fun a b => a.uid ≠ b.uid) :=
    (List.pairwise_cons.mp (List.pairwise_append.mp hdu).2.1).2
  have hins : lookupT (treeInsert e.start e c1.tree) e.start = some e :=
    lookupT_treeInsert_self _ _ _
  have hsafe : ∀ r ∈ l2, ∀ old, alGet r.uid (alInsert e.uid e c1.uid_index) = some old →
      old.start ≠ e.start := by
    intro r hr old hold
    rw [huid_keep r hr] at hold
    exact hstored_start r hr old hold
  by_cases hl : ltF e.start fr
  · simp only [hl, if_true]
    rw [pass1_tree_other fr l2 _ _ hstart_l2 hsafe]
    exact hins
  · simp only [hl, Bool.false_eq_true, if_false]
    rw [pass1_tree_other fr l2 _ _ hstart_l2 hsafe]
    exact hins

/-- The records of the first pass: none is a `Removed` record, and their
start keys form a subsequence of the processed starts. -/
theorem pass1_records_shape (fr : Option Timestamp) :
    ∀ (es : List Event) (c : Calendar) (acc : List UpdateResult),
      ∃ δ, (pass1 fr c acc es).2 = acc ++ δ ∧
        (∀ r ∈ δ, isRemovedRec r = false) ∧
        (δ.map recStart).Sublist (es.map (fun e => e.start)) := by
  intro es
  induction es with
  | nil => intro c acc; exact ⟨[], by simp [pass1], by simp, by simp⟩
  | cons e rest ih =>
    intro c acc
    simp only [pass1, List.map_cons]
    cases hg : alGet e.uid c.uid_index with
    | some existing =>
      by_cases he : existing = e
      · simp only [if_pos he]
        obtain ⟨δ, h1, h2, h3⟩ := ih c acc
        exact ⟨δ, h1, h2, h3.cons _⟩
      · simp only [if_neg he]
        obtain ⟨δ, h1, h2, h3⟩ := ih
          ⟨treeRemove existing.start (treeInsert e.start e c.tree), alInsert e.uid e c.uid_index⟩
          (acc ++ [UpdateResult.Updated existing e])
        refine ⟨UpdateResult.Updated existing e :: δ, by rw [h1]; simp, ?_, ?_⟩
        · intro r hr
          rcases List.mem_cons.mp hr with h4 | h4
          · rw [h4]; rfl
          · exact h2 r h4
        · simpa [recStart] using h3.cons₂ e.start
    | none =>
      by_cases hl : ltF e.start fr
      · simp only [hl, if_true]
        obtain ⟨δ, h1, h2, h3⟩ := ih
          ⟨treeInsert e.start e c.tree, alInsert e.uid e c.uid_index⟩
          (acc ++ [UpdateResult.Created e])
        refine ⟨UpdateResult.Created e :: δ, by rw [h1]; simp, ?_, ?_⟩
        · intro r hr
          rcases List.mem_cons.mp hr with h4 | h4
          · rw [h4]; rfl
          · exact h2 r h4
        · simpa [recStart] using h3.cons₂ e.start
      · simp only [hl, Bool.false_eq_true, if_false]
        obtain ⟨δ, h1, h2, h3⟩ := ih
          ⟨treeInsert e.start e c.tree, alInsert e.uid e c.uid_index⟩ acc
        exact ⟨δ, h1, h2, h3.cons _⟩

/-! ### Second-pass lemmas -/

theorem emitRemoved_mem {tidx : List (Timestamp × Event)} :
    ∀ {R : List Event} {r : UpdateResult}, r ∈ emitRemoved tidx R →
      ∃ ev ∈ R, r = UpdateResult.Removed ev ∧ lookupT tidx ev.start = none := by
  intro R
  induction R with
  | nil => intro r h; simp [emitRemoved] at h
  | cons ev rest ih =>
    intro r h
    simp only [emitRemoved] at h
    rcases List.mem_append.mp h with h1 | h1
    · by_cases hs : (lookupT tidx ev.start).isSome
      · rw [if_pos hs] at h1; simp at h1
      · rw [if_neg hs] at h1
        simp at h1
        refine ⟨ev, List.mem_cons_self _ _, h1, ?_⟩
        cases hx : lookupT tidx ev.start
        · rfl
        · rw [hx] at hs; simp at hs
    · obtain ⟨ev2, hm, he, hn⟩ := ih h1
      exact ⟨ev2, List.mem_cons_of_mem _ hm, he, hn⟩

theorem emitRemoved_starts (tidx : List (Timestamp × Event)) :
    ∀ (R : List Event),
      ((emitRemoved tidx R).map recStart).Sublist (R.map (fun e => e.start)) := by
  intro R
  induction R with
  | nil => simp [emitRemoved]
  | cons ev rest ih =>
    simp only [emitRemoved, List.map_append, List.map_cons]
    by_cases hs : (lookupT tidx ev.start).isSome
    · rw [if_pos hs]
      simpa using ih.cons _
    · rw [if_neg hs]
      simpa [recStart] using ih.cons₂ ev.start

/-- Full characterization of the second pass under the invariant that every
range event is present in the identity index under its uid: no fatal
error, records as `emitRemoved`, and preservation of untouched slots. -/
theorem pass2_spec (tidx : List (Timestamp × Event)) :
    ∀ (R : List Event) (c : Calendar) (acc : List UpdateResult),
      (∀ ev ∈ R, alGet ev.uid c.uid_index = some ev) →
      R.Pairwise (fun a b => a.uid ≠ b.uid) →
      ∃ c2, pass2 tidx c acc R = Except.ok (c2, acc ++ emitRemoved tidx R) ∧
        (∀ u, (∀ ev ∈ R, lookupT tidx ev.start = none → ev.uid ≠ u) →
          alGet u c2.uid_index = alGet u c.uid_index) ∧
        (∀ k, (∀ ev ∈ R, lookupT tidx ev.start = none → ev.start ≠ k) →
          lookupT c2.tree k = lookupT c.tree k) := by
  intro R
  induction R with
  | nil =>
    intro c acc _ _
    exact ⟨c, by simp [pass2, emitRemoved], fun u _ => rfl, fun k _ => rfl⟩
  | cons ev rest ih =>
    intro c acc hsub hd
    have hd1 := (List.pairwise_cons.mp hd).1
    have hd2 := (List.pairwise_cons.mp hd).2
    have hev := hsub ev (List.mem_cons_self _ _)
    by_cases hs : (lookupT tidx ev.start).isSome
    · obtain ⟨c2, heq, hu, ht⟩ := ih c acc
        (fun r hr => hsub r (List.mem_cons_of_mem _ hr)) hd2
      refine ⟨c2, ?_, ?_, ?_⟩
      · simp only [pass2, if_pos hs, emitRemoved, heq]
        simp
      · intro u h
        exact hu u (fun r hr hnone => h r (List.mem_cons_of_mem _ hr) hnone)
      · intro k h
        exact ht k (fun r hr hnone => h r (List.mem_cons_of_mem _ hr) hnone)
    · have hnone : lookupT tidx ev.start = none := by
        cases hx : lookupT tidx ev.start
        · rfl
        · rw [hx] at hs; simp at hs
      have hsub2 : ∀ r ∈ rest,
          alGet r.uid (alRemove ev.uid c.uid_index) = some r := by
        intro r hr
        rw [alGet_alRemove_ne _ (fun hh => hd1 r hr hh.symm)]
        exact hsub r (List.mem_cons_of_mem _ hr)
      obtain ⟨c2, heq, hu, ht⟩ := ih
        ⟨treeRemove ev.start c.tree, alRemove ev.uid c.uid_index⟩
        (acc ++ [UpdateResult.Removed ev]) hsub2 hd2
      refine ⟨c2, ?_, ?_, ?_⟩
      · simp only [pass2, if_neg hs, hev, emitRemoved, if_neg hs]
        rw [heq]
        simp
      · intro u h
        have huev : ev.uid ≠ u := h ev (List.mem_cons_self _ _) hnone
        rw [hu u (fun r hr hn => h r (List.mem_cons_of_mem _ hr) hn)]
        exact alGet_alRemove_ne _ (fun hh => huev hh.symm)
      · intro k h
        have hkev : ev.start ≠ k := h ev (List.mem_cons_self _ _) hnone
        rw [ht k (fun r hr hn => h r (List.mem_cons_of_mem _ hr) hn)]
        exact lookupT_treeRemove_ne _ (fun hh => hkev hh.symm)

/-! ### `update`-level decomposition -/

theorem update_eq (c : Calendar) (es : List Event) (ft : Timestamp) (ta : Nat) :
    Calendar.update c es ft ta =
      pass2 (treeFromList es) (pass1State c es).1 (pass1State c es).2
        (updateRange (pass1State c es).1 ft ta) := rfl

theorem updateRange_sub {c1 : Calendar} {ft : Timestamp} {ta : Nat} (h : WF c1) :
    ∀ ev ∈ updateRange c1 ft ta, alGet ev.uid c1.uid_index = some ev := by
  intro ev hev
  rcases List.mem_map.mp hev with ⟨p, hp, hpe⟩
  rw [← hpe]
  exact h.2.2.2.2 p (List.mem_of_mem_filter hp)

theorem updateRange_window {c1 : Calendar} {ft : Timestamp} {ta : Nat} (h : WF c1) :
    ∀ ev ∈ updateRange c1 ft ta, ft ≤ ev.start ∧ ev.start < ft + (ta : Int) := by
  intro ev hev
  rcases List.mem_map.mp hev with ⟨p, hp, hpe⟩
  have hcond : ft ≤ p.1 ∧ p.1 < ft + (ta : Int) := by
    have := List.of_mem_filter hp
    simpa using this
  have hstart : ev.start = p.1 := by
    rw [← hpe]
    exact h.2.1 p (List.mem_of_mem_filter hp)
  rw [hstart]
  exact hcond

theorem updateRange_uid_pairwise {c1 : Calendar} {ft : Timestamp} {ta : Nat} (h : WF c1) :
    (updateRange c1 ft ta).Pairwise (fun a b => a.uid ≠ b.uid) := by
  obtain ⟨hs, hkm, _, _, hsub⟩ := h
  unfold updateRange
  rw [List.pairwise_map]
  have hsf : (c1.tree.filter (fun p => decide (ft ≤ p.1 ∧ p.1 < ft + (ta : Int)))).Pairwise
      (fun p q => p.1 < q.1) := hs.filter _
  apply hsf.imp_of_mem
  intro p q hp hq hlt hequ
  have hps := hsub p (List.mem_of_mem_filter hp)
  have hqs := hsub q (List.mem_of_mem_filter hq)
  rw [hequ] at hps
  rw [hps] at hqs
  have : p.2 = q.2 := (Option.some.injEq _ _).mp hqs
  have hk : p.1 = q.1 := by
    rw [← hkm p (List.mem_of_mem_filter hp), ← hkm q (List.mem_of_mem_filter hq), this]
  exact absurd hk (ne_of_lt hlt)

theorem updateRange_starts_sorted {c1 : Calendar} {ft : Timestamp} {ta : Nat} (h : WF c1) :
    (updateRange c1 ft ta).Pairwise (fun a b => a.start < b.start) := by
  obtain ⟨hs, hkm, _, _, _⟩ := h
  unfold updateRange
  rw [List.pairwise_map]
  have hsf : (c1.tree.filter (fun p => decide (ft ≤ p.1 ∧ p.1 < ft + (ta : Int)))).Pairwise
      (fun p q => p.1 < q.1) := hs.filter _
  apply hsf.imp_of_mem
  intro p q hp hq hlt
  rw [hkm p (List.mem_of_mem_filter hp), hkm q (List.mem_of_mem_filter hq)]
  exact hlt

/-- The processed value list of the first pass has strictly increasing
starts. -/
theorem pass1_input_starts (es : List Event) :
    ((treeFromList es).map (fun p => p.2)).Pairwise (fun a b => a.start < b.start) := by
  rw [List.pairwise_map]
  apply (treeFromList_sorted es).imp_of_mem
  intro p q hp hq hlt
  rw [treeFromList_keysMatch es p hp, treeFromList_keysMatch es q hq]
  exact hlt

/-- Master shape theorem for `Calendar.update` on a well-formed calendar:
the call succeeds and its records split into a created/updated prefix in
ascending start order followed by a removed suffix in ascending start
order, the latter confined to the deletion window. -/
theorem update_shape (c : Calendar) (es : List Event) (ft : Timestamp) (ta : Nat)
    (h : WF c) :
    ∃ c2 δ1 δ2, Calendar.update c es ft ta = Except.ok (c2, δ1 ++ δ2) ∧
      (∀ r ∈ δ1, isRemovedRec r = false) ∧
      δ1.Pairwise (fun a b => recStart a < recStart b) ∧
      (∀ r ∈ δ2, isRemovedRec r = true) ∧
      δ2.Pairwise (fun a b => recStart a < recStart b) ∧
      (∀ r ∈ δ2, ft ≤ recStart r ∧ recStart r < ft + (ta : Int)) := by
  have hwf1 : WF (pass1State c es).1 := pass1_WF _ _ _ _ h
  obtain ⟨δ1, hδ1, hnr, hsl⟩ :=
    pass1_records_shape (existing_end c) ((treeFromList es).map (fun p => p.2)) c []
  obtain ⟨c2, heq, _, _⟩ := pass2_spec (treeFromList es) (updateRange (pass1State c es).1 ft ta)
    (pass1State c es).1 (pass1State c es).2 (updateRange_sub hwf1) (updateRange_uid_pairwise hwf1)
  refine ⟨c2, δ1, emitRemoved (treeFromList es) (updateRange (pass1State c es).1 ft ta), ?_, hnr, ?_, ?_, ?_, ?_⟩
  · rw [update_eq, heq]
    have : (pass1State c es).2 = δ1 := by
      unfold pass1State
      rw [hδ1]
      simp
    rw [this]
  · have hps : (((treeFromList es).map (fun p => p.2)).map (fun e => e.start)).Pairwise
        (fun a b => a < b) := by
      rw [List.pairwise_map]
      exact pass1_input_starts es
    have := (hps.sublist hsl)
    rw [List.pairwise_map] at this
    exact this
  · intro r hr
    obtain ⟨ev, _, hform, _⟩ := emitRemoved_mem hr
    rw [hform]
    rfl
  · have hps : ((updateRange (pass1State c es).1 ft ta).map (fun e => e.start)).Pairwise
        (fun a b => a < b) := by
      rw [List.pairwise_map]
      exact updateRange_starts_sorted hwf1
    have := hps.sublist (emitRemoved_starts (treeFromList es) (updateRange (pass1State c es).1 ft ta))
    rw [List.pairwise_map] at this
    exact this
  · intro r hr
    obtain ⟨ev, hmem, hform, _⟩ := emitRemoved_mem hr
    rw [hform]
    exact updateRange_window hwf1 ev hmem

/-! ### Record bookkeeping helpers -/

theorem emitAll_append (m : List (String × Event)) (fr : Option Timestamp) :
    ∀ (xs ys : List Event), emitAll m fr (xs ++ ys) = emitAll m fr xs ++ emitAll m fr ys := by
  intro xs ys
  induction xs with
  | nil => simp [emitAll]
  | cons e rest ih => simp [emitAll, ih]

theorem emitRec_stored_eq {m : List (String × Event)} {fr : Option Timestamp} {x old : Event}
    (hg : alGet x.uid m = some old) (he : old = x) : emitRec m fr x = [] := by
  simp only [emitRec, hg, if_pos he]

theorem emitRec_stored_ne {m : List (String × Event)} {fr : Option Timestamp} {x old : Event}
    (hg : alGet x.uid m = some old) (he : ¬old = x) :
    emitRec m fr x = [UpdateResult.Updated old x] := by
  simp only [emitRec, hg, if_neg he]

theorem emitRec_fresh_lt {m : List (String × Event)} {fr : Option Timestamp} {x : Event}
    (hg : alGet x.uid m = none) (hl : ltF x.start fr = true) :
    emitRec m fr x = [UpdateResult.Created x] := by
  simp only [emitRec, hg, if_pos hl]

theorem emitRec_fresh_nlt {m : List (String × Event)} {fr : Option Timestamp} {x : Event}
    (hg : alGet x.uid m = none) (hl : ltF x.start fr = false) :
    emitRec m fr x = [] := by
  simp [emitRec, hg, hl]

theorem emitRec_created {m : List (String × Event)} {fr : Option Timestamp} {x e : Event} :
    UpdateResult.Created e ∈ emitRec m fr x ↔
      (x = e ∧ alGet x.uid m = none ∧ ltF x.start fr = true) := by
  constructor
  · intro h
    cases hg : alGet x.uid m with
    | some old =>
      by_cases he : old = x
      · rw [emitRec_stored_eq hg he] at h
        simp at h
      · rw [emitRec_stored_ne hg he] at h
        simp at h
    | none =>
      cases hl : ltF x.start fr with
      | true =>
        rw [emitRec_fresh_lt hg hl] at h
        simp at h
        exact ⟨h.symm, rfl, rfl⟩
      | false =>
        rw [emitRec_fresh_nlt hg hl] at h
        simp at h
  · intro ⟨hxe, hg, hl⟩
    rw [emitRec_fresh_lt hg hl, hxe]
    exact List.mem_singleton_self _

theorem mem_emitAll {m : List (String × Event)} {fr : Option Timestamp} {r : UpdateResult} :
    ∀ {es : List Event}, r ∈ emitAll m fr es ↔ ∃ x ∈ es, r ∈ emitRec m fr x := by
  intro es
  induction es with
  | nil => simp [emitAll]
  | cons e rest ih =>
    simp only [emitAll, List.mem_append, ih]
    constructor
    · intro h
      rcases h with h | ⟨x, hx, hr⟩
      · exact ⟨e, List.mem_cons_self _ _, h⟩
      · exact ⟨x, List.mem_cons_of_mem _ hx, hr⟩
    · intro ⟨x, hx, hr⟩
      rcases List.mem_cons.mp hx with h1 | h1
      · exact Or.inl (h1 ▸ hr)
      · exact Or.inr ⟨x, h1, hr⟩

theorem emitRec_no_touch {m : List (String × Event)} {fr : Option Timestamp} {x : Event}
    {u : String} (hwk : wellKeyedU m) (hx : x.uid ≠ u) :
    ∀ r ∈ emitRec m fr x, touchesUid u r = false := by
  intro r hr
  cases hg : alGet x.uid m with
  | some old =>
    by_cases he : old = x
    · rw [emitRec_stored_eq hg he] at hr
      simp at hr
    · rw [emitRec_stored_ne hg he] at hr
      simp at hr
      rw [hr]
      have hold : old.uid = x.uid := alGet_eq_uid hwk hg
      simp [touchesUid, hold, hx]
  | none =>
    cases hl : ltF x.start fr with
    | true =>
      rw [emitRec_fresh_lt hg hl] at hr
      simp at hr
      rw [hr]
      simp [touchesUid, hx]
    | false =>
      rw [emitRec_fresh_nlt hg hl] at hr
      simp at hr

theorem emitAll_filter_none {m : List (String × Event)} {fr : Option Timestamp} {u : String}
    (hwk : wellKeyedU m) :
    ∀ {es : List Event}, (∀ x ∈ es, x.uid ≠ u) →
      (emitAll m fr es).filter (touchesUid u) = [] := by
  intro es h
  rw [List.filter_eq_nil_iff]
  intro r hr
  obtain ⟨x, hx, hrx⟩ := mem_emitAll.mp hr
  rw [emitRec_no_touch hwk (h x hx) r hrx]
  simp

theorem emitRemoved_filter_none {tidx : List (Timestamp × Event)} {u : String}
    {R : List Event} (h : ∀ ev ∈ R, lookupT tidx ev.start = none → ev.uid ≠ u) :
    (emitRemoved tidx R).filter (touchesUid u) = [] := by
  rw [List.filter_eq_nil_iff]
  intro r hr
  obtain ⟨ev, hm, hform, hnone⟩ := emitRemoved_mem hr
  rw [hform]
  simp [touchesUid]
  exact h ev hm hnone

theorem mem_updInput_lookup {es : List Event} {e : Event} (he : e ∈ updInput es) :
    lookupT (treeFromList es) e.start = some e := by
  rcases List.mem_map.mp he with ⟨p, hp, hpe⟩
  have hk : p.1 = e.start := by
    rw [← treeFromList_keysMatch es p hp, hpe]
  have hpe2 : p = (e.start, e) := by
    rw [← hk, ← hpe]
  apply mem_lookupT (sortedKeys_nodup (treeFromList_sorted es))
  rw [← hpe2]
  exact hp

/-- Full characterization of `update` for a batch with pairwise-distinct
uids in its processed form. -/
theorem update_full (c : Calendar) (es : List Event) (ft : Timestamp) (ta : Nat)
    (hwf : WF c) (hdu : (updInput es).Pairwise (fun a b => a.uid ≠ b.uid)) :
    ∃ c2, Calendar.update c es ft ta = Except.ok (c2,
        emitAll c.uid_index (existing_end c) (updInput es) ++
        emitRemoved (treeFromList es) (updateRange (pass1State c es).1 ft ta)) ∧
      (∀ u, (∀ ev ∈ updateRange (pass1State c es).1 ft ta,
          lookupT (treeFromList es) ev.start = none → ev.uid ≠ u) →
        alGet u c2.uid_index = alGet u (pass1State c es).1.uid_index) ∧
      (∀ k, (∀ ev ∈ updateRange (pass1State c es).1 ft ta,
          lookupT (treeFromList es) ev.start = none → ev.start ≠ k) →
        lookupT c2.tree k = lookupT (pass1State c es).1.tree k) := by
  have hwf1 : WF (pass1State c es).1 := pass1_WF _ _ _ _ hwf
  obtain ⟨c2, heq, hu, ht⟩ := pass2_spec (treeFromList es)
    (updateRange (pass1State c es).1 ft ta) (pass1State c es).1 (pass1State c es).2
    (updateRange_sub hwf1) (updateRange_uid_pairwise hwf1)
  refine ⟨c2, ?_, hu, ht⟩
  rw [update_eq, heq]
  have hdu2 : ((treeFromList es).map (fun p => p.2)).Pairwise (fun a b => a.uid ≠ b.uid) := hdu
  have hrec : (pass1State c es).2 = emitAll c.uid_index (existing_end c) (updInput es) := by
    unfold pass1State
    rw [pass1_records _ _ _ _ hdu2]
    simp [updInput]
  rw [hrec]

/-- Range events whose start key is missing from the temporary index cannot
carry the uid of a processed event (that event is itself keyed in the
temporary index). -/
theorem range_uid_safe {c : Calendar} {es : List Event} {ft : Timestamp} {ta : Nat}
    {e : Event} (he : e ∈ updInput es)
    (hstate : alGet e.uid (pass1State c es).1.uid_index = some e)
    (hwf1 : WF (pass1State c es).1) :
    ∀ ev ∈ updateRange (pass1State c es).1 ft ta,
      lookupT (treeFromList es) ev.start = none → ev.uid ≠ e.uid := by
  intro ev hev hnone hequ
  have h1 : alGet ev.uid (pass1State c es).1.uid_index = some ev := updateRange_sub hwf1 ev hev
  rw [hequ, hstate] at h1
  have heve : ev = e := ((Option.some.injEq _ _).mp h1).symm
  rw [heve] at hnone
  rw [mem_updInput_lookup he] at hnone
  exact Option.noConfusion hnone

theorem range_start_safe {c1 : Calendar} {es : List Event} {ft : Timestamp} {ta : Nat}
    {e : Event} (he : e ∈ updInput es) :
    ∀ ev ∈ updateRange c1 ft ta,
      lookupT (treeFromList es) ev.start = none → ev.start ≠ e.start := by
  intro ev _ hnone hequ
  rw [hequ, mem_updInput_lookup he] at hnone
  exact Option.noConfusion hnone

theorem mem_treeFromList {es : List Event} {p : Timestamp × Event} :
    p ∈ treeFromList es → p.2 ∈ es := by
  have main : ∀ (es : List Event) (t : List (Timestamp × Event)),
      p ∈ es.foldl (fun t f => treeInsert f.start f t) t → p ∈ t ∨ p.2 ∈ es := by
    intro es
    induction es with
    | nil => intro t h; exact Or.inl h
    | cons e rest ih =>
      intro t h
      simp only [List.foldl_cons] at h
      rcases ih _ h with h1 | h1
      · rcases mem_treeInsert h1 with h2 | h2
        · right
          rw [h2]
          exact List.mem_cons_self _ _
        · exact Or.inl h2
      · exact Or.inr (List.mem_cons_of_mem _ h1)
  intro h
  rcases main es [] h with h1 | h1
  · simp at h1
  · exact h1

theorem updInput_subset {es : List Event} {x : Event} (h : x ∈ updInput es) : x ∈ es := by
  rcases List.mem_map.mp h with ⟨p, hp, hpe⟩
  rw [← hpe]
  exact mem_treeFromList hp

/-- Behavior of `update` on a well-formed calendar: success, with the second-pass
records appended and untouched slots preserved (no input restrictions). -/
theorem update_ok_WF (c : Calendar) (es : List Event) (ft : Timestamp) (ta : Nat)
    (hwf : WF c) :
    ∃ c2, Calendar.update c es ft ta = Except.ok (c2,
        (pass1State c es).2 ++
        emitRemoved (treeFromList es) (updateRange (pass1State c es).1 ft ta)) ∧
      (∀ u, (∀ ev ∈ updateRange (pass1State c es).1 ft ta,
          lookupT (treeFromList es) ev.start = none → ev.uid ≠ u) →
        alGet u c2.uid_index = alGet u (pass1State c es).1.uid_index) ∧
      (∀ k, (∀ ev ∈ updateRange (pass1State c es).1 ft ta,
          lookupT (treeFromList es) ev.start = none → ev.start ≠ k) →
        lookupT c2.tree k = lookupT (pass1State c es).1.tree k) := by
  have hwf1 : WF (pass1State c es).1 := pass1_WF _ _ _ _ hwf
  obtain ⟨c2, heq, hu, ht⟩ := pass2_spec (treeFromList es)
    (updateRange (pass1State c es).1 ft ta) (pass1State c es).1 (pass1State c es).2
    (updateRange_sub hwf1) (updateRange_uid_pairwise hwf1)
  exact ⟨c2, by rw [update_eq, heq], hu, ht⟩

/-! ### Serialization round-trip lemmas -/

theorem deserialize_proj : ∀ (es : List Event) (c0 : Calendar),
    es.foldl (fun c item =>
        ⟨treeInsert item.start item c.tree, alInsert item.uid item c.uid_index⟩) c0 =
      ⟨es.foldl (fun t e => treeInsert e.start e t) c0.tree,
       es.foldl (fun m e => alInsert e.uid e m) c0.uid_index⟩ := by
  intro es
  induction es with
  | nil => intro c0; rfl
  | cons e rest ih =>
    intro c0
    simp only [List.foldl_cons]
    rw [ih]

theorem deserialize_eq (es : List Event) :
    Calendar.deserialize es =
      ⟨treeFromList es, es.foldl (fun m e => alInsert e.uid e m) []⟩ := by
  unfold Calendar.deserialize treeFromList
  rw [deserialize_proj]
  rfl

theorem alGet_append {α : Type} (k : String) : ∀ (l1 l2 : List (String × α)),
    alGet k (l1 ++ l2) =
      match alGet k l1 with
      | some v => some v
      | none => alGet k l2 := by
  intro l1 l2
  induction l1 with
  | nil => simp [alGet]
  | cons p rest ih =>
    by_cases hp : p.1 = k
    · simp [alGet, hp]
    · simp [alGet, hp, ih]

/-- Re-inserting the serialized values of a well-formed identity index
rebuilds it exactly. -/
theorem uid_rebuild : ∀ (m acc : List (String × Event)),
    wellKeyedU m → uidNodup m → (∀ q ∈ m, alGet q.1 acc = none) →
    (m.map (fun q => q.2)).foldl (fun acc2 e => alInsert e.uid e acc2) acc = acc ++ m := by
  intro m
  induction m with
  | nil => intro acc _ _ _; simp
  | cons q rest ih =>
    intro acc hwk hnd hfresh
    have hq : q.1 = q.2.uid := hwk q (List.mem_cons_self _ _)
    have hqfresh : alGet q.2.uid acc = none := by
      rw [← hq]
      exact hfresh q (List.mem_cons_self _ _)
    have hkeys : q.1 ∉ rest.map (fun p => p.1) ∧ (rest.map (fun p => p.1)).Nodup := by
      have h2 : uidNodup (q :: rest) := hnd
      unfold uidNodup at h2
      simp only [List.map_cons, List.nodup_cons] at h2
      exact h2
    have hstep : alInsert q.2.uid q.2 acc = acc ++ [q] := by
      rw [alInsert_keys_fresh _ _ _ hqfresh, ← hq, Prod.mk.eta]
    simp only [List.map_cons, List.foldl_cons, hstep]
    rw [ih (acc ++ [q]) (fun p hp => hwk p (List.mem_cons_of_mem _ hp)) hkeys.2 ?fresh2]
    · simp
    case fresh2 =>
      intro p hp
      rw [alGet_append]
      rw [hfresh p (List.mem_cons_of_mem _ hp)]
      have hne : q.1 ≠ p.1 := by
        intro hh
        exact hkeys.1 (hh ▸ List.mem_map.mpr ⟨p, hp, rfl⟩)
      simp [alGet, hne]

theorem serialize_mem {c : Calendar} (hwk : wellKeyedU c.uid_index) {v : Event} :
    v ∈ Calendar.serialize c ↔ (v.uid, v) ∈ c.uid_index := by
  unfold Calendar.serialize
  constructor
  · intro h
    rcases List.mem_map.mp h with ⟨q, hq, hqv⟩
    have hqk := hwk q hq
    have : (v.uid, v) = q := by
      rw [← hqv, ← hqk]
    rw [this]
    exact hq
  · intro h
    exact List.mem_map.mpr ⟨(v.uid, v), h, rfl⟩

theorem serialize_starts_distinct {c : Calendar} (h : Sync c) :
    (Calendar.serialize c).Pairwise (fun a b => a.start ≠ b.start) := by
  obtain ⟨⟨hs, hkm, hwk, hnd, hsub⟩, husub⟩ := h
  unfold Calendar.serialize
  rw [List.pairwise_map]
  have hpair_keys : c.uid_index.Pairwise (fun q q' => q.1 ≠ q'.1) := by
    have h2 : (c.uid_index.map (fun q => q.1)).Pairwise (fun a b => a ≠ b) := hnd
    rw [List.pairwise_map] at h2
    exact h2
  apply hpair_keys.imp_of_mem
  intro q q' hq hq' hne hstart_eq
  have h1 := husub q hq
  have h2 := husub q' hq'
  rw [hstart_eq] at h1
  rw [h1] at h2
  have hv : q.2 = q'.2 := (Option.some.injEq _ _).mp h2
  exact hne (by rw [hwk q hq, hwk q' hq', hv])

/-- Round trip: deserializing the serialized form of a lock-step calendar
reproduces it exactly. -/
theorem deserialize_serialize {c : Calendar} (h : Sync c) :
    Calendar.deserialize (Calendar.serialize c) = c := by
  obtain ⟨⟨hs, hkm, hwk, hnd, hsub⟩, husub⟩ := h
  rw [deserialize_eq]
  have huid : (Calendar.serialize c).foldl (fun m e => alInsert e.uid e m) [] = c.uid_index := by
    have := uid_rebuild c.uid_index [] hwk hnd (by intro q _; rfl)
    simpa [Calendar.serialize] using this
  have htree : treeFromList (Calendar.serialize c) = c.tree := by
    apply sorted_ext (treeFromList_sorted _) hs
    intro k
    cases hx : lookupT c.tree k with
    | some v =>
      have hmem : (k, v) ∈ c.tree := lookupT_mem hx
      have hvstart : v.start = k := hkm (k, v) hmem
      have hvuid : alGet v.uid c.uid_index = some v := hsub (k, v) hmem
      have hvser : v ∈ Calendar.serialize c := (serialize_mem hwk).mpr (alGet_mem hvuid)
      have hperm := treeFromList_perm
        (serialize_starts_distinct ⟨⟨hs, hkm, hwk, hnd, hsub⟩, husub⟩)
      have hin : (v.start, v) ∈ treeFromList (Calendar.serialize c) :=
        hperm.mem_iff.mpr (List.mem_map.mpr ⟨v, hvser, rfl⟩)
      rw [← hvstart]
      exact mem_lookupT (sortedKeys_nodup (treeFromList_sorted _)) hin
    | none =>
      cases hy : lookupT (treeFromList (Calendar.serialize c)) k with
      | none => rfl
      | some w =>
        exfalso
        have hmem := lookupT_mem hy
        have hw : w ∈ Calendar.serialize c := mem_treeFromList hmem
        have hkw : w.start = k := treeFromList_keysMatch _ _ hmem
        have hwi : (w.uid, w) ∈ c.uid_index := (serialize_mem hwk).mp hw
        have hl := husub _ hwi
        simp only at hl
        rw [hkw, hx] at hl
        exact Option.noConfusion hl
  rw [huid, htree]

/-! ### Claim theorems -/

theorem pass1State_eq (c : Calendar) (es : List Event) :
    pass1State c es = pass1 (existing_end c) c [] (updInput es) := rfl

/-- C6: `get_range(from, duration)` returns exactly the stored events whose
start lies in `[from, from + duration)`, in ascending start order; the
model is pure, so the state is untouched and repeated calls agree. -/
theorem C6_get_range_correct (c : Calendar) (date : Timestamp) (d : Int)
    (hsync : Sync c) (hd : 0 ≤ d) :
    ∃ l, Calendar.get_range c date d = some l ∧
      (∀ e, e ∈ l ↔ ((e.start, e) ∈ c.tree ∧ date ≤ e.start ∧ e.start < date + d)) ∧
      l.Pairwise (fun a b => a.start < b.start) ∧
      Calendar.get_range c date d = Calendar.get_range c date d := by
  obtain ⟨⟨hs, hkm, _, _, _⟩, _⟩ := hsync
  have hnp : ¬(date + d < date) := by linarith
  refine ⟨_, by rw [Calendar.get_range, if_neg hnp], ?_, ?_, rfl⟩
  · intro e
    constructor
    · intro he
      rcases List.mem_map.mp he with ⟨p, hp, hpe⟩
      have hpt := List.mem_of_mem_filter hp
      have hcond : date ≤ p.1 ∧ p.1 < date + d := by simpa using List.of_mem_filter hp
      have hst : e.start = p.1 := by rw [← hpe]; exact hkm p hpt
      have hpeq : (e.start, e) = p := by
        rw [← hpe, hkm p hpt]
      refine ⟨by rw [hpeq]; exact hpt, ?_, ?_⟩
      · rw [hst]; exact hcond.1
      · rw [hst]; exact hcond.2
    · intro ⟨hmem, h1, h2⟩
      apply List.mem_map.mpr
      refine ⟨(e.start, e), List.mem_filter.mpr ⟨hmem, ?_⟩, rfl⟩
      simp [h1, h2]
  · rw [List.pairwise_map]
    apply (hs.filter _).imp_of_mem
    intro p q hp hq hlt
    rw [hkm p (List.mem_of_mem_filter hp), hkm q (List.mem_of_mem_filter hq)]
    exact hlt

/-- C6 witness. -/
theorem C6_get_range_correct_witness :
    Sync (Calendar.deserialize [mkEv "a" 1 "", mkEv "b" 5 ""]) ∧ (0 : Int) ≤ 10 ∧
    (∃ l, Calendar.get_range (Calendar.deserialize [mkEv "a" 1 "", mkEv "b" 5 ""]) 0 10 = some l ∧
      (∀ e, e ∈ l ↔ ((e.start, e) ∈ (Calendar.deserialize [mkEv "a" 1 "", mkEv "b" 5 ""]).tree ∧
        0 ≤ e.start ∧ e.start < 0 + 10)) ∧
      l.Pairwise (fun a b => a.start < b.start) ∧
      Calendar.get_range (Calendar.deserialize [mkEv "a" 1 "", mkEv "b" 5 ""]) 0 10 =
        Calendar.get_range (Calendar.deserialize [mkEv "a" 1 "", mkEv "b" 5 ""]) 0 10) :=
  ⟨by decide, by decide, C6_get_range_correct _ 0 10 (by decide) (by decide)⟩

/-- C10: `get_range` returns normally for every non-negative duration (a
zero duration yields the empty sequence) and hits the `BTreeMap::range`
panic (modelled as `none`) for every strictly negative duration. -/
theorem C10_get_range_totality (c : Calendar) (date : Timestamp) (d : Int) :
    (0 ≤ d → ∃ l, Calendar.get_range c date d = some l) ∧
    (Calendar.get_range c date 0 = some []) ∧
    (d < 0 → Calendar.get_range c date d = none) := by
  refine ⟨?_, ?_, ?_⟩
  · intro h
    have hnp : ¬(date + d < date) := by linarith
    exact ⟨_, by rw [Calendar.get_range, if_neg hnp]⟩
  · rw [Calendar.get_range, if_neg (by linarith)]
    have hempty : c.tree.filter (fun p => decide (date ≤ p.1 ∧ p.1 < date + 0)) = [] := by
      rw [List.filter_eq_nil_iff]
      intro p _
      simp only [decide_eq_true_eq]
      intro ⟨ha, hb⟩
      linarith
    rw [hempty]
    rfl
  · intro h
    rw [Calendar.get_range, if_pos (by linarith)]

/-- C10 witness. -/
theorem C10_get_range_totality_witness :
    ((0 : Int) ≤ 5 → ∃ l, Calendar.get_range (Calendar.deserialize [mkEv "a" 1 ""]) 0 5 = some l) ∧
    (Calendar.get_range (Calendar.deserialize [mkEv "a" 1 ""]) 0 0 = some []) ∧
    ((5 : Int) < 0 → Calendar.get_range (Calendar.deserialize [mkEv "a" 1 ""]) 0 5 = none) :=
  C10_get_range_totality (Calendar.deserialize [mkEv "a" 1 ""]) 0 5

/-- C7: within one `update` call the records are all created/updated ones in
ascending start order followed by all removed ones in ascending start
order, with no interleaving. -/
theorem C7_record_ordering (c : Calendar) (es : List Event) (ft : Timestamp) (ta : Nat)
    (h : WF c) :
    ∃ c2 δ1 δ2, Calendar.update c es ft ta = Except.ok (c2, δ1 ++ δ2) ∧
      (∀ r ∈ δ1, isRemovedRec r = false) ∧
      δ1.Pairwise (fun a b => recStart a < recStart b) ∧
      (∀ r ∈ δ2, isRemovedRec r = true) ∧
      δ2.Pairwise (fun a b => recStart a < recStart b) := by
  obtain ⟨c2, δ1, δ2, heq, h1, h2, h3, h4, _⟩ := update_shape c es ft ta h
  exact ⟨c2, δ1, δ2, heq, h1, h2, h3, h4⟩

/-- C7 witness: one update that creates, edits and removes at once. -/
theorem C7_record_ordering_witness :
    WF (Calendar.deserialize [mkEv "a" 1 "x", mkEv "b" 5 "x"]) ∧
    (∃ c2 δ1 δ2, Calendar.update (Calendar.deserialize [mkEv "a" 1 "x", mkEv "b" 5 "x"])
        [mkEv "a" 1 "y", mkEv "n" 3 ""] 0 100 = Except.ok (c2, δ1 ++ δ2) ∧
      (∀ r ∈ δ1, isRemovedRec r = false) ∧
      δ1.Pairwise (fun a b => recStart a < recStart b) ∧
      (∀ r ∈ δ2, isRemovedRec r = true) ∧
      δ2.Pairwise (fun a b => recStart a < recStart b)) :=
  ⟨by decide, C7_record_ordering _ [mkEv "a" 1 "y", mkEv "n" 3 ""] 0 100 (by decide)⟩

/-- C8: after a successful reconciliation, `Store.apply` serializes the
entire store map into the persisted file before returning the records; on
a write failure the error propagates while the in-memory mutation is
retained (same updated map as in the success case) and the file is
untouched. -/
theorem C8_persistence (s : Store) (nm : String) (events : List Event) (ft : Timestamp)
    (ta : Nat) (cal cal2 : Calendar) (ups : List UpdateResult)
    (hcfg : alGet nm s.calendars = some ta)
    (hcal : alGet nm s.data = some cal)
    (hupd : Calendar.update cal events ft ta = Except.ok (cal2, ups)) :
    Store.apply s true nm events ft =
      ({ s with data := alInsert nm cal2 s.data,
                saved := some (serializeData (alInsert nm cal2 s.data)) }, Except.ok ups) ∧
    Store.apply s false nm events ft =
      ({ s with data := alInsert nm cal2 s.data },
        Except.error "failed to write the database file") := by
  constructor <;>
    simp [Store.apply, hcal, hcfg, hupd]

/-- C8 witness. -/
theorem C8_persistence_witness :
    alGet "cal" ([("cal", 100)] : List (String × Nat)) = some 100 ∧
    alGet "cal" [("cal", Calendar.new)] = some Calendar.new ∧
    Calendar.update Calendar.new [mkEv "a" 1 ""] 0 100 =
      Except.ok ((⟨[(1, mkEv "a" 1 "")], [("a", mkEv "a" 1 "")]⟩ : Calendar),
        [UpdateResult.Created (mkEv "a" 1 "")]) ∧
    Store.apply ⟨[("cal", Calendar.new)], [("cal", 100)], none⟩ true "cal" [mkEv "a" 1 ""] 0 =
      ({ data := alInsert "cal" (⟨[(1, mkEv "a" 1 "")], [("a", mkEv "a" 1 "")]⟩ : Calendar)
                   [("cal", Calendar.new)],
         calendars := [("cal", 100)],
         saved := some (serializeData (alInsert "cal"
           (⟨[(1, mkEv "a" 1 "")], [("a", mkEv "a" 1 "")]⟩ : Calendar) [("cal", Calendar.new)])) },
        Except.ok [UpdateResult.Created (mkEv "a" 1 "")]) ∧
    Store.apply ⟨[("cal", Calendar.new)], [("cal", 100)], none⟩ false "cal" [mkEv "a" 1 ""] 0 =
      ({ data := alInsert "cal" (⟨[(1, mkEv "a" 1 "")], [("a", mkEv "a" 1 "")]⟩ : Calendar)
                   [("cal", Calendar.new)],
         calendars := [("cal", 100)],
         saved := none },
        Except.error "failed to write the database file") := by
  refine ⟨by decide, by decide, by rfl, ?_⟩
  exact C8_persistence ⟨[("cal", Calendar.new)], [("cal", 100)], none⟩ "cal" [mkEv "a" 1 ""] 0
    100 Calendar.new (⟨[(1, mkEv "a" 1 "")], [("a", mkEv "a" 1 "")]⟩ : Calendar)
    [UpdateResult.Created (mkEv "a" 1 "")] (by decide) (by decide) (by rfl)

/-- C9: an unknown calendar name in the configuration makes `Store.apply`
fail before the reconciliation and before any disk write, but the freshly
created empty calendar (when the name was absent) stays in the in-memory
map. -/
theorem C9_missing_config (s : Store) (wk : Bool) (nm : String) (events : List Event)
    (ft : Timestamp) (hcfg : alGet nm s.calendars = none) :
    (Store.apply s wk nm events ft).2 = Except.error "unknown calendar: unreachable" ∧
    (Store.apply s wk nm events ft).1.saved = s.saved ∧
    (alGet nm s.data = none →
      (Store.apply s wk nm events ft).1.data = alInsert nm Calendar.new s.data ∧
      alGet nm (Store.apply s wk nm events ft).1.data = some Calendar.new) ∧
    ((alGet nm s.data).isSome → (Store.apply s wk nm events ft).1.data = s.data) := by
  refine ⟨?_, ?_, ?_, ?_⟩
  · cases hdata : alGet nm s.data <;> simp [Store.apply, hcfg, hdata]
  · cases hdata : alGet nm s.data <;> simp [Store.apply, hcfg, hdata]
  · intro h
    constructor
    · simp [Store.apply, hcfg, h]
    · simp [Store.apply, hcfg, h, alGet_alInsert_self]
  · intro h
    cases hdata : alGet nm s.data with
    | some cal => simp [Store.apply, hcfg, hdata]
    | none =>
      rw [hdata] at h
      exact absurd h (by simp)

/-- C9 witness. -/
theorem C9_missing_config_witness :
    alGet "ghost" ([("cal", 100)] : List (String × Nat)) = none ∧
    ((Store.apply ⟨[], [("cal", 100)], none⟩ true "ghost" [] 0).2 =
      Except.error "unknown calendar: unreachable" ∧
    (Store.apply ⟨[], [("cal", 100)], none⟩ true "ghost" [] 0).1.saved = none ∧
    (alGet "ghost" ([] : List (String × Calendar)) = none →
      (Store.apply ⟨[], [("cal", 100)], none⟩ true "ghost" [] 0).1.data =
        alInsert "ghost" Calendar.new [] ∧
      alGet "ghost" (Store.apply ⟨[], [("cal", 100)], none⟩ true "ghost" [] 0).1.data =
        some Calendar.new) ∧
    ((alGet "ghost" ([] : List (String × Calendar))).isSome →
      (Store.apply ⟨[], [("cal", 100)], none⟩ true "ghost" [] 0).1.data = [])) :=
  ⟨by decide, C9_missing_config ⟨[], [("cal", 100)], none⟩ true "ghost" [] 0 (by decide)⟩

/-- C3 (amended): a stored event with start outside the deletion window
never gets a `Removed` record (whatever the fetch contains); and when no
fetched event shares its uid or its start, it also stays in both indices. -/
theorem C3_deletion_bound (c : Calendar) (es : List Event) (ft : Timestamp) (ta : Nat)
    (v : Event) (hsync : Sync c)
    (hstored : alGet v.uid c.uid_index = some v)
    (hout : v.start < ft ∨ ft + (ta : Int) ≤ v.start) :
    (∀ c2 ups, Calendar.update c es ft ta = Except.ok (c2, ups) →
      UpdateResult.Removed v ∉ ups) ∧
    ((∀ x ∈ es, x.uid ≠ v.uid) → (∀ x ∈ es, x.start ≠ v.start) →
      ∃ c2 ups, Calendar.update c es ft ta = Except.ok (c2, ups) ∧
        alGet v.uid c2.uid_index = some v ∧ lookupT c2.tree v.start = some v) := by
  obtain ⟨hwf, husub⟩ := hsync
  have hwf1 : WF (pass1State c es).1 := pass1_WF _ _ _ _ hwf
  constructor
  · intro c2 ups heq hmem
    obtain ⟨c2s, δ1, δ2, heqs, hnr, _, hrm, _, hwin⟩ := update_shape c es ft ta hwf
    rw [heq] at heqs
    have hups : ups = δ1 ++ δ2 := by
      have := (Except.ok.injEq _ _).mp heqs
      exact congrArg Prod.snd this
    rw [hups] at hmem
    rcases List.mem_append.mp hmem with h1 | h1
    · have := hnr _ h1
      simp [isRemovedRec] at this
    · have := hwin _ h1
      simp only [recStart] at this
      rcases hout with h2 | h2
      · linarith [this.1]
      · linarith [this.2]
  · intro hnuid hnstart
    obtain ⟨c2, heq, hu, ht⟩ := update_ok_WF c es ft ta hwf
    have hwk : wellKeyedU c.uid_index := hwf.2.2.1
    have hvmem : (v.uid, v) ∈ c.uid_index := alGet_mem hstored
    have hvtree : lookupT c.tree v.start = some v := husub _ hvmem
    have hnuidL : ∀ x ∈ updInput es, x.uid ≠ v.uid := fun x hx => hnuid x (updInput_subset hx)
    have hnstartL : ∀ x ∈ updInput es, x.start ≠ v.start :=
      fun x hx => hnstart x (updInput_subset hx)
    -- first pass leaves v untouched
    have h1uid : alGet v.uid (pass1State c es).1.uid_index = some v := by
      rw [pass1State_eq, pass1_uid_other _ _ _ _ hnuidL]
      exact hstored
    have h1tree : lookupT (pass1State c es).1.tree v.start = some v := by
      rw [pass1State_eq, pass1_tree_other _ _ _ _ hnstartL ?hsafe]
      · exact hvtree
      case hsafe =>
        intro x hx old hold hcollide
        have homem : (x.uid, old) ∈ c.uid_index := alGet_mem hold
        have hotree : lookupT c.tree old.start = some old := husub _ homem
        rw [hcollide, hvtree] at hotree
        have hov : old = v := (Option.some.injEq _ _).mp hotree.symm
        have : x.uid = old.uid := (alGet_eq_uid hwk hold).symm
        rw [hov] at this
        exact hnuidL x hx this
    -- second pass leaves v untouched
    have hsafeu : ∀ ev ∈ updateRange (pass1State c es).1 ft ta,
        lookupT (treeFromList es) ev.start = none → ev.uid ≠ v.uid := by
      intro ev hev _ hequ
      have h1 := updateRange_sub hwf1 ev hev
      rw [hequ, h1uid] at h1
      have heve : ev = v := ((Option.some.injEq _ _).mp h1).symm
      have hwin := updateRange_window hwf1 ev hev
      rw [heve] at hwin
      rcases hout with h2 | h2
      · linarith [hwin.1]
      · linarith [hwin.2]
    have hsafek : ∀ ev ∈ updateRange (pass1State c es).1 ft ta,
        lookupT (treeFromList es) ev.start = none → ev.start ≠ v.start := by
      intro ev hev _ hequ
      have hwin := updateRange_window hwf1 ev hev
      rw [hequ] at hwin
      rcases hout with h2 | h2
      · linarith [hwin.1]
      · linarith [hwin.2]
    refine ⟨c2, _, heq, ?_, ?_⟩
    · rw [hu v.uid hsafeu]
      exact h1uid
    · rw [ht v.start hsafek]
      exact h1tree

/-- C3 witness: stored events at 50 and 200 with window `[0, 100)`; the
fetch repeats the event at 50 only. -/
theorem C3_deletion_bound_witness :
    Sync (Calendar.deserialize [mkEv "a" 50 "x", mkEv "b" 200 "x"]) ∧
    alGet "b" (Calendar.deserialize [mkEv "a" 50 "x", mkEv "b" 200 "x"]).uid_index =
      some (mkEv "b" 200 "x") ∧
    ((mkEv "b" 200 "x").start < 0 ∨ (0 : Int) + (100 : Nat) ≤ (mkEv "b" 200 "x").start) ∧
    ((∀ c2 ups, Calendar.update (Calendar.deserialize [mkEv "a" 50 "x", mkEv "b" 200 "x"])
        [mkEv "a" 50 "x"] 0 100 = Except.ok (c2, ups) →
      UpdateResult.Removed (mkEv "b" 200 "x") ∉ ups) ∧
    ((∀ x ∈ [mkEv "a" 50 "x"], x.uid ≠ (mkEv "b" 200 "x").uid) →
      (∀ x ∈ [mkEv "a" 50 "x"], x.start ≠ (mkEv "b" 200 "x").start) →
      ∃ c2 ups, Calendar.update (Calendar.deserialize [mkEv "a" 50 "x", mkEv "b" 200 "x"])
          [mkEv "a" 50 "x"] 0 100 = Except.ok (c2, ups) ∧
        alGet "b" c2.uid_index = some (mkEv "b" 200 "x") ∧
        lookupT c2.tree 200 = some (mkEv "b" 200 "x"))) := by
  refine ⟨by decide, by decide, by decide, ?_⟩
  exact C3_deletion_bound (Calendar.deserialize [mkEv "a" 50 "x", mkEv "b" 200 "x"])
    [mkEv "a" 50 "x"] 0 100 (mkEv "b" 200 "x") (by decide) (by decide) (by decide)

theorem pairwise_ne_perm {β : Type} (f : Event → β) {l l' : List Event} (h : l.Perm l')
    (hp : l'.Pairwise (fun a b => f a ≠ f b)) : l.Pairwise (fun a b => f a ≠ f b) := by
  refine (h.pairwise_iff ?_).mpr hp
  intro x y hxy hyx
  exact hxy hyx.symm

/-- C2 (amended): for a batch with pairwise-distinct starts and uids and no
start collision against stored events of other uids, a fresh-uid event gets
a `Created` record exactly when its start precedes the frontier
(`existing_end`, the earliest stored start, `MAX_UTC` when empty); either
way it is inserted into both indices, and past the frontier no record at
all mentions it. -/
theorem C2_created_frontier (c : Calendar) (es : List Event) (ft : Timestamp) (ta : Nat)
    (e : Event) (hsync : Sync c)
    (hds : es.Pairwise (fun a b => a.start ≠ b.start))
    (hdu : es.Pairwise (fun a b => a.uid ≠ b.uid))
    (hcross : ∀ x ∈ es, ∀ p ∈ c.tree, p.1 = x.start → p.2.uid = x.uid)
    (he : e ∈ es) (hfresh : alGet e.uid c.uid_index = none) :
    ∃ c2 ups, Calendar.update c es ft ta = Except.ok (c2, ups) ∧
      (UpdateResult.Created e ∈ ups ↔ ltF e.start (existing_end c) = true) ∧
      alGet e.uid c2.uid_index = some e ∧
      lookupT c2.tree e.start = some e ∧
      (ltF e.start (existing_end c) = false → ∀ r ∈ ups, touchesUid e.uid r = false) := by
  obtain ⟨hwf, husub⟩ := hsync
  have hwk : wellKeyedU c.uid_index := hwf.2.2.1
  have hwf1 : WF (pass1State c es).1 := pass1_WF _ _ _ _ hwf
  have hperm : (updInput es).Perm es := treeFromList_values_perm hds
  have hduL : (updInput es).Pairwise (fun a b => a.uid ≠ b.uid) := pairwise_ne_perm _ hperm hdu
  have hdsL : (updInput es).Pairwise (fun a b => a.start ≠ b.start) := pairwise_ne_perm _ hperm hds
  have heL : e ∈ updInput es := hperm.mem_iff.mpr he
  have hcrossL : ∀ x ∈ updInput es, ∀ p ∈ c.tree, p.1 = x.start → p.2.uid = x.uid :=
    fun x hx => hcross x (hperm.subset hx)
  obtain ⟨l1, l2, hsplit⟩ := List.append_of_mem heL
  have hduS : (l1 ++ e :: l2).Pairwise (fun a b => a.uid ≠ b.uid) := by rw [← hsplit]; exact hduL
  have hdsS : (l1 ++ e :: l2).Pairwise (fun a b => a.start ≠ b.start) := by rw [← hsplit]; exact hdsL
  have hcrossS : ∀ x ∈ l1 ++ e :: l2, ∀ p ∈ c.tree, p.1 = x.start → p.2.uid = x.uid := by
    rw [← hsplit]; exact hcrossL
  have hstate1 : alGet e.uid (pass1State c es).1.uid_index = some e := by
    rw [pass1State_eq, hsplit]
    exact pass1_split_uid _ l1 l2 e c [] hduS
  have hstate1t : lookupT (pass1State c es).1.tree e.start = some e := by
    rw [pass1State_eq, hsplit]
    exact pass1_split_tree_fresh _ l1 l2 e c [] ⟨hwf, husub⟩ hdsS hduS hcrossS hfresh
  obtain ⟨c2, heq, hu, ht⟩ := update_full c es ft ta hwf hduL
  refine ⟨c2, _, heq, ?_, ?_, ?_, ?_⟩
  · constructor
    · intro hmem
      rcases List.mem_append.mp hmem with h1 | h1
      · obtain ⟨x, hxL, hrx⟩ := mem_emitAll.mp h1
        obtain ⟨hxe, _, hxl⟩ := emitRec_created.mp hrx
        rw [hxe] at hxl
        exact hxl
      · obtain ⟨ev, _, hform, _⟩ := emitRemoved_mem h1
        exact UpdateResult.noConfusion hform
    · intro hl
      apply List.mem_append.mpr
      left
      apply mem_emitAll.mpr
      refine ⟨e, heL, ?_⟩
      rw [emitRec_fresh_lt hfresh hl]
      exact List.mem_singleton_self _
  · rw [hu e.uid (range_uid_safe heL hstate1 hwf1)]
    exact hstate1
  · rw [ht e.start (range_start_safe heL)]
    exact hstate1t
  · intro hlf r hr
    rcases List.mem_append.mp hr with h1 | h1
    · obtain ⟨x, hxL, hrx⟩ := mem_emitAll.mp h1
      by_cases hxu : x.uid = e.uid
      · have hxe : x = e := by
          by_contra hne
          have hsymm : Symmetric (fun a b : Event => a.uid ≠ b.uid) := by
            intro a b h hh
            exact h hh.symm
          exact List.Pairwise.forall hsymm hduL hxL heL hne hxu
        rw [hxe, emitRec_fresh_nlt hfresh hlf] at hrx
        simp at hrx
      · exact emitRec_no_touch hwk hxu r hrx
    · obtain ⟨ev, hm, hform, hnone⟩ := emitRemoved_mem h1
      have hne := range_uid_safe heL hstate1 hwf1 ev hm hnone
      rw [hform]
      simp [touchesUid, hne]

/-- C2 witness: calendar holding an event at 100, fetching a fresh event at
5 (before the frontier) — a `Created` record is emitted and the event lands
in both indices. -/
theorem C2_created_frontier_witness :
    Sync (Calendar.deserialize [mkEv "s" 100 ""]) ∧
    alGet "n" (Calendar.deserialize [mkEv "s" 100 ""]).uid_index = none ∧
    (∃ c2 ups, Calendar.update (Calendar.deserialize [mkEv "s" 100 ""]) [mkEv "n" 5 ""] 0 50 =
        Except.ok (c2, ups) ∧
      (UpdateResult.Created (mkEv "n" 5 "") ∈ ups ↔
        ltF (mkEv "n" 5 "").start (existing_end (Calendar.deserialize [mkEv "s" 100 ""])) = true) ∧
      alGet "n" c2.uid_index = some (mkEv "n" 5 "") ∧
      lookupT c2.tree 5 = some (mkEv "n" 5 "") ∧
      (ltF (mkEv "n" 5 "").start (existing_end (Calendar.deserialize [mkEv "s" 100 ""])) = false →
        ∀ r ∈ ups, touchesUid "n" r = false)) := by
  refine ⟨by decide, by decide, ?_⟩
  exact C2_created_frontier (Calendar.deserialize [mkEv "s" 100 ""]) [mkEv "n" 5 ""] 0 50
    (mkEv "n" 5 "") (by decide) (by decide) (by decide) (by decide) (by decide) (by decide)

/-- C4 (amended): in a batch with pairwise-distinct starts and uids, an
incoming event whose uid has a differing stored counterpart produces
exactly one record mentioning that uid — `Updated {old, new}` with `old`
the prior stored value — and the identity index ends up holding the
incoming event; a structurally equal counterpart produces no record
mentioning the uid at all. -/
theorem C4_update_once (c : Calendar) (es : List Event) (ft : Timestamp) (ta : Nat)
    (e old : Event) (hsync : Sync c)
    (hds : es.Pairwise (fun a b => a.start ≠ b.start))
    (hdu : es.Pairwise (fun a b => a.uid ≠ b.uid))
    (he : e ∈ es) (hstored : alGet e.uid c.uid_index = some old) :
    ∃ c2 ups, Calendar.update c es ft ta = Except.ok (c2, ups) ∧
      alGet e.uid c2.uid_index = some e ∧
      (¬old = e → ups.filter (touchesUid e.uid) = [UpdateResult.Updated old e]) ∧
      (old = e → ups.filter (touchesUid e.uid) = []) := by
  obtain ⟨hwf, husub⟩ := hsync
  have hwk : wellKeyedU c.uid_index := hwf.2.2.1
  have hwf1 : WF (pass1State c es).1 := pass1_WF _ _ _ _ hwf
  have hperm : (updInput es).Perm es := treeFromList_values_perm hds
  have hduL : (updInput es).Pairwise (fun a b => a.uid ≠ b.uid) := pairwise_ne_perm _ hperm hdu
  have heL : e ∈ updInput es := hperm.mem_iff.mpr he
  obtain ⟨l1, l2, hsplit⟩ := List.append_of_mem heL
  have hduS : (l1 ++ e :: l2).Pairwise (fun a b => a.uid ≠ b.uid) := by rw [← hsplit]; exact hduL
  have h_l1 : ∀ x ∈ l1, x.uid ≠ e.uid :=
    fun x hx => (List.pairwise_append.mp hduS).2.2 x hx e (List.mem_cons_self _ _)
  have h_l2 : ∀ x ∈ l2, x.uid ≠ e.uid := by
    intro x hx hh
    exact (List.pairwise_cons.mp (List.pairwise_append.mp hduS).2.1).1 x hx hh.symm
  have hstate1 : alGet e.uid (pass1State c es).1.uid_index = some e := by
    rw [pass1State_eq, hsplit]
    exact pass1_split_uid _ l1 l2 e c [] hduS
  obtain ⟨c2, heq, hu, ht⟩ := update_full c es ft ta hwf hduL
  have hfilter2 : (emitRemoved (treeFromList es)
      (updateRange (pass1State c es).1 ft ta)).filter (touchesUid e.uid) = [] :=
    emitRemoved_filter_none (range_uid_safe heL hstate1 hwf1)
  have hfilter1 : ∀ mid : List UpdateResult,
      (emitAll c.uid_index (existing_end c) (updInput es)).filter (touchesUid e.uid) =
        (emitRec c.uid_index (existing_end c) e).filter (touchesUid e.uid) := by
    intro _
    rw [hsplit, emitAll_append]
    have hmid : emitAll c.uid_index (existing_end c) (e :: l2) =
        emitRec c.uid_index (existing_end c) e ++ emitAll c.uid_index (existing_end c) l2 := rfl
    rw [hmid, List.filter_append, List.filter_append]
    rw [emitAll_filter_none hwk h_l1, emitAll_filter_none hwk h_l2]
    simp
  refine ⟨c2, _, heq, ?_, ?_, ?_⟩
  · rw [hu e.uid (range_uid_safe heL hstate1 hwf1)]
    exact hstate1
  · intro hne
    rw [List.filter_append, hfilter2, hfilter1 []]
    rw [emitRec_stored_ne hstored hne]
    simp [touchesUid]
  · intro heq2
    rw [List.filter_append, hfilter2, hfilter1 []]
    rw [emitRec_stored_eq hstored heq2]
    simp

/-- C4 witness: the stored event with uid `u` is edited by the fetch. -/
theorem C4_update_once_witness :
    Sync (Calendar.deserialize [mkEv "u" 0 "a"]) ∧
    alGet "u" (Calendar.deserialize [mkEv "u" 0 "a"]).uid_index = some (mkEv "u" 0 "a") ∧
    (∃ c2 ups, Calendar.update (Calendar.deserialize [mkEv "u" 0 "a"]) [mkEv "u" 0 "b"] 0 100 =
        Except.ok (c2, ups) ∧
      alGet "u" c2.uid_index = some (mkEv "u" 0 "b") ∧
      (¬mkEv "u" 0 "a" = mkEv "u" 0 "b" →
        ups.filter (touchesUid "u") = [UpdateResult.Updated (mkEv "u" 0 "a") (mkEv "u" 0 "b")]) ∧
      (mkEv "u" 0 "a" = mkEv "u" 0 "b" → ups.filter (touchesUid "u") = [])) := by
  refine ⟨by decide, by decide, ?_⟩
  exact C4_update_once (Calendar.deserialize [mkEv "u" 0 "a"]) [mkEv "u" 0 "b"] 0 100
    (mkEv "u" 0 "b") (mkEv "u" 0 "a") (by decide) (by decide) (by decide) (by decide) (by decide)

/-- C1: evaluating `update` at the failing input.  A same-uid edit that
keeps the start timestamp (`insert new.start` then `remove old.start` with
equal keys) deletes the entry from the chronological index while the
identity index keeps the new event: the lock-step invariant breaks. -/
theorem C1_lockstep_bug :
    Calendar.new.update [mkEv "a" 0 "x"] 0 1000 =
      Except.ok ((⟨[(0, mkEv "a" 0 "x")], [("a", mkEv "a" 0 "x")]⟩ : Calendar),
        [UpdateResult.Created (mkEv "a" 0 "x")]) ∧
    Calendar.update ⟨[(0, mkEv "a" 0 "x")], [("a", mkEv "a" 0 "x")]⟩ [mkEv "a" 0 "y"] 0 1000 =
      Except.ok ((⟨[], [("a", mkEv "a" 0 "y")]⟩ : Calendar),
        [UpdateResult.Updated (mkEv "a" 0 "x") (mkEv "a" 0 "y")]) ∧
    alGet "a" [("a", mkEv "a" 0 "y")] = some (mkEv "a" 0 "y") ∧
    lookupT ([] : List (Timestamp × Event)) 0 = none ∧
    ¬uidSub ⟨[], [("a", mkEv "a" 0 "y")]⟩ :=
  ⟨by rfl, by rfl, by rfl, by rfl, by decide⟩

/-- C2 counterexample: two fresh-uid events sharing a start on an empty
calendar.  The temporary index collapses them (last wins), so uid `a` is
neither announced nor inserted, although its uid is new and its start is
strictly before the (sentinel) frontier. -/
theorem C2_counterexample :
    alGet "a" Calendar.new.uid_index = none ∧
    ltF (mkEv "a" 5 "").start (existing_end Calendar.new) = true ∧
    Calendar.new.update [mkEv "a" 5 "", mkEv "b" 5 ""] 0 1000 =
      Except.ok ((⟨[(5, mkEv "b" 5 "")], [("b", mkEv "b" 5 "")]⟩ : Calendar),
        [UpdateResult.Created (mkEv "b" 5 "")]) ∧
    UpdateResult.Created (mkEv "a" 5 "") ∉ [UpdateResult.Created (mkEv "b" 5 "")] ∧
    alGet "a" ([("b", mkEv "b" 5 "")] : List (String × Event)) = none :=
  ⟨by rfl, by rfl, by rfl, by decide, by rfl⟩

/-- C3 counterexample: a stored event with start 50, outside the window
`[0, 10)`, is replaced by a same-uid edit in the fetch; the stored event
disappears from both indices (and the edit even vanishes from the
chronological index), refuting "never removes it from either index". -/
theorem C3_counterexample :
    Sync (Calendar.deserialize [mkEv "a" 50 "x"]) ∧
    alGet "a" (Calendar.deserialize [mkEv "a" 50 "x"]).uid_index = some (mkEv "a" 50 "x") ∧
    ((mkEv "a" 50 "x").start < 0 ∨ (0 : Int) + ((10 : Nat) : Int) ≤ (mkEv "a" 50 "x").start) ∧
    Calendar.update (Calendar.deserialize [mkEv "a" 50 "x"]) [mkEv "a" 50 "y"] 0 10 =
      Except.ok ((⟨[], [("a", mkEv "a" 50 "y")]⟩ : Calendar),
        [UpdateResult.Updated (mkEv "a" 50 "x") (mkEv "a" 50 "y")]) ∧
    alGet "a" ([("a", mkEv "a" 50 "y")] : List (String × Event)) ≠ some (mkEv "a" 50 "x") ∧
    lookupT ([] : List (Timestamp × Event)) 50 = none :=
  ⟨by decide, by rfl, by decide, by rfl, by decide, by rfl⟩

/-- C4 counterexample: two same-uid events in one fetch against a stored
counterpart that differs from both.  Two `Updated` records are emitted for
that uid and the second one's `old` is not the previously stored value. -/
theorem C4_counterexample :
    Sync (Calendar.deserialize [mkEv "u" 0 "a"]) ∧
    alGet "u" (Calendar.deserialize [mkEv "u" 0 "a"]).uid_index = some (mkEv "u" 0 "a") ∧
    Calendar.update (Calendar.deserialize [mkEv "u" 0 "a"]) [mkEv "u" 1 "b", mkEv "u" 2 "c"] 0 1000 =
      Except.ok ((⟨[(2, mkEv "u" 2 "c")], [("u", mkEv "u" 2 "c")]⟩ : Calendar),
        [UpdateResult.Updated (mkEv "u" 0 "a") (mkEv "u" 1 "b"),
         UpdateResult.Updated (mkEv "u" 1 "b") (mkEv "u" 2 "c")]) ∧
    ([UpdateResult.Updated (mkEv "u" 0 "a") (mkEv "u" 1 "b"),
      UpdateResult.Updated (mkEv "u" 1 "b") (mkEv "u" 2 "c")].filter (touchesUid "u")).length = 2 ∧
    mkEv "u" 1 "b" ≠ mkEv "u" 0 "a" :=
  ⟨by decide, by rfl, by rfl, by rfl, by decide⟩

/-- C5 counterexample: the desynchronized state reachable through the
same-start edit of C1 serializes to its identity-index events; rebuilding
the indices from that list resurrects the event in the chronological
index, so `get_range` differs after the round trip. -/
theorem C5_counterexample :
    Calendar.update ⟨[(0, mkEv "a" 0 "x")], [("a", mkEv "a" 0 "x")]⟩ [mkEv "a" 0 "y"] 0 1000 =
      Except.ok ((⟨[], [("a", mkEv "a" 0 "y")]⟩ : Calendar),
        [UpdateResult.Updated (mkEv "a" 0 "x") (mkEv "a" 0 "y")]) ∧
    serializeData [("cal", ⟨[], [("a", mkEv "a" 0 "y")]⟩)] = [("cal", [mkEv "a" 0 "y"])] ∧
    deserializeData [("cal", [mkEv "a" 0 "y"])] =
      [("cal", ⟨[(0, mkEv "a" 0 "y")], [("a", mkEv "a" 0 "y")]⟩)] ∧
    Calendar.get_range ⟨[], [("a", mkEv "a" 0 "y")]⟩ 0 1 = some [] ∧
    Calendar.get_range ⟨[(0, mkEv "a" 0 "y")], [("a", mkEv "a" 0 "y")]⟩ 0 1 =
      some [mkEv "a" 0 "y"] ∧
    (some ([] : List Event) ≠ some [mkEv "a" 0 "y"]) :=
  ⟨by rfl, by rfl, by rfl, by rfl, by rfl, by decide⟩

/-- C5 (amended): on a store whose calendars satisfy the lock-step
invariant, serialization followed by deserialization reproduces the map
exactly, so per-name `get_range` results and identity lookups are
unchanged. -/
theorem C5_roundtrip (d : List (String × Calendar)) (h : ∀ p ∈ d, Sync p.2) :
    deserializeData (serializeData d) = d ∧
    (∀ name, alGet name (deserializeData (serializeData d)) = alGet name d) ∧
    (∀ name date dur, (alGet name (deserializeData (serializeData d))).map
        (fun cal => Calendar.get_range cal date dur) =
      (alGet name d).map (fun cal => Calendar.get_range cal date dur)) := by
  have hdd : deserializeData (serializeData d) = d := by
    unfold deserializeData serializeData
    rw [List.map_map]
    have hpt : ∀ p ∈ d, ((fun p : String × List Event => (p.1, Calendar.deserialize p.2)) ∘
        (fun p : String × Calendar => (p.1, Calendar.serialize p.2))) p = p := by
      intro p hp
      simp only [Function.comp]
      rw [deserialize_serialize (h p hp)]
    rw [List.map_congr_left hpt]
    exact List.map_id d
  refine ⟨hdd, fun name => by rw [hdd], fun name date dur => by rw [hdd]⟩

/-- C5 witness. -/
theorem C5_roundtrip_witness :
    (∀ p ∈ [("cal", Calendar.deserialize [mkEv "a" 1 ""])], Sync p.2) ∧
    (deserializeData (serializeData [("cal", Calendar.deserialize [mkEv "a" 1 ""])]) =
        [("cal", Calendar.deserialize [mkEv "a" 1 ""])] ∧
      (∀ name, alGet name (deserializeData (serializeData
          [("cal", Calendar.deserialize [mkEv "a" 1 ""])])) =
        alGet name [("cal", Calendar.deserialize [mkEv "a" 1 ""])]) ∧
      (∀ name date dur, (alGet name (deserializeData (serializeData
            [("cal", Calendar.deserialize [mkEv "a" 1 ""])]))).map
          (fun cal => Calendar.get_range cal date dur) =
        (alGet name [("cal", Calendar.deserialize [mkEv "a" 1 ""])]).map
          (fun cal => Calendar.get_range cal date dur))) :=
  ⟨by decide, C5_roundtrip [("cal", Calendar.deserialize [mkEv "a" 1 ""])] (by decide)⟩
